import Mathlib

/-!
Shallow embedding of `src/services/chessEngine.ts` (a chess move-search
engine built on the chess.js rules engine) and verification of the
specification's claims about it.

The rules engine (chess.js) is out of scope for the source: positions are
opaque state queried through a narrow interface (`board()`, `turn()`,
`isCheckmate()`, `isDraw()`, `isGameOver()`, `moves({verbose:true})`,
`move`, `undo`, `fen`).  We embed a position snapshot as a `Game` record of
exactly the queries the engine makes, and the game tree reachable through
`moves`/`move` as an inductive tree whose edges are the verbose move
objects.  JavaScript numbers used by the engine are integers and the two
infinities, embedded as `Score`.
-/

/-- JavaScript number values reachable in the engine's integer arithmetic:
an integer in centipawns, or `±Infinity` (the checkmate sentinels and the
initial alpha/beta window). -/
inductive Score where
  | negInf : Score
  | fin : Int → Score
  | posInf : Score
deriving DecidableEq, Repr

/-- Order-embedding of `Score` into `WithBot (WithTop Int)`, used only to
inherit the linear order. -/
def Score.toWBT : Score → WithBot (WithTop Int)
  | .negInf => ⊥
  | .fin v => (v : WithTop Int)
  | .posInf => ((⊤ : WithTop Int) : WithBot (WithTop Int))

theorem Score.toWBT_injective : Function.Injective Score.toWBT := by
  intro a b h
  cases a <;> cases b <;> simp_all [Score.toWBT]

instance : LinearOrder Score := LinearOrder.lift' Score.toWBT Score.toWBT_injective

/-- Negation of a JS number (used to state the evaluation mirror symmetry). -/
def Score.neg : Score → Score
  | .negInf => .posInf
  | .fin v => .fin (-v)
  | .posInf => .negInf

theorem Score.negInf_le (s : Score) : Score.negInf ≤ s := by
  show Score.toWBT .negInf ≤ Score.toWBT s
  exact bot_le

theorem Score.le_posInf (s : Score) : s ≤ Score.posInf := by
  show Score.toWBT s ≤ Score.toWBT .posInf
  cases s <;> simp [Score.toWBT]

/-- Piece colors of chess.js (`'w' | 'b'`). -/
inductive Color where
  | w : Color
  | b : Color
deriving DecidableEq, Repr

/-- The opposite color (used to state the color-mirror symmetry). -/
def Color.swap : Color → Color
  | .w => .b
  | .b => .w

/-- Piece types of chess.js (`'p' | 'n' | 'b' | 'r' | 'q' | 'k'`). -/
inductive PT where
  | p : PT
  | n : PT
  | b : PT
  | r : PT
  | q : PT
  | k : PT
deriving DecidableEq, Repr

/-- A chess.js `Piece`: `{ color, type }`. -/
structure Piece where
  color : Color
  ptype : PT
deriving DecidableEq, Repr

/-- `pieceValues` (source lines 5-7). -/
def pieceValues : PT → Int
  | .p => 100
  | .n => 320
  | .b => 330
  | .r => 500
  | .q => 900
  | .k => 20000

/-- `pawnEvalWhite` (source lines 17-26). -/
def pawnEvalWhite : List (List Int) :=
  [[0,  0,  0,  0,  0,  0,  0,  0],
   [50, 50, 50, 50, 50, 50, 50, 50],
   [10, 10, 20, 30, 30, 20, 10, 10],
   [5,  5, 10, 27, 27, 10,  5,  5],
   [0,  0,  0, 25, 25,  0,  0,  0],
   [5, -5, -10,  0,  0, -10, -5,  5],
   [5, 10, 10, -25, -25, 10, 10,  5],
   [0,  0,  0,  0,  0,  0,  0,  0]]

/-- `knightEval` (source lines 28-37), shared between colors. -/
def knightEval : List (List Int) :=
  [[-50, -40, -30, -30, -30, -30, -40, -50],
   [-40, -20,  0,  0,  0,  0, -20, -40],
   [-30,  0, 10, 15, 15, 10,  0, -30],
   [-30,  5, 15, 20, 20, 15,  5, -30],
   [-30,  0, 15, 20, 20, 15,  0, -30],
   [-30,  5, 10, 15, 15, 10,  5, -30],
   [-40, -20,  0,  5,  5,  0, -20, -40],
   [-50, -40, -30, -30, -30, -30, -40, -50]]

/-- `bishopEvalWhite` (source lines 39-48). -/
def bishopEvalWhite : List (List Int) :=
  [[-20, -10, -10, -10, -10, -10, -10, -20],
   [-10,  0,  0,  0,  0,  0,  0, -10],
   [-10,  0,  5, 10, 10,  5,  0, -10],
   [-10,  5,  5, 10, 10,  5,  5, -10],
   [-10,  0, 10, 10, 10, 10,  0, -10],
   [-10, 10, 10, 10, 10, 10, 10, -10],
   [-10,  5,  0,  0,  0,  0,  5, -10],
   [-20, -10, -10, -10, -10, -10, -10, -20]]

/-- `rookEvalWhite` (source lines 50-59). -/
def rookEvalWhite : List (List Int) :=
  [[0,  0,  0,  0,  0,  0,  0,  0],
   [5, 10, 10, 10, 10, 10, 10,  5],
   [-5,  0,  0,  0,  0,  0,  0, -5],
   [-5,  0,  0,  0,  0,  0,  0, -5],
   [-5,  0,  0,  0,  0,  0,  0, -5],
   [-5,  0,  0,  0,  0,  0,  0, -5],
   [-5,  0,  0,  0,  0,  0,  0, -5],
   [0,  0,  0,  5,  5,  0,  0,  0]]

/-- `queenEval` (source lines 61-70), shared between colors. -/
def queenEval : List (List Int) :=
  [[-20, -10, -10, -5, -5, -10, -10, -20],
   [-10,  0,  0,  0,  0,  0,  0, -10],
   [-10,  0,  5,  5,  5,  5,  0, -10],
   [-5,  0,  5,  5,  5,  5,  0, -5],
   [0,  0,  5,  5,  5,  5,  0, -5],
   [-10,  5,  5,  5,  5,  5,  0, -10],
   [-10,  0,  5,  0,  0,  0,  0, -10],
   [-20, -10, -10, -5, -5, -10, -10, -20]]

/-- `kingEvalWhite` (source lines 73-82). -/
def kingEvalWhite : List (List Int) :=
  [[-30, -40, -40, -50, -50, -40, -40, -30],
   [-30, -40, -40, -50, -50, -40, -40, -30],
   [-30, -40, -40, -50, -50, -40, -40, -30],
   [-30, -40, -40, -50, -50, -40, -40, -30],
   [-20, -30, -30, -40, -40, -30, -30, -20],
   [-10, -20, -20, -20, -20, -20, -20, -10],
   [20, 20,  0,  0,  0,  0, 20, 20],
   [20, 30, 10,  0,  0, 10, 30, 20]]

/-- `pawnEvalBlack = [...pawnEvalWhite].reverse()` (source line 85). -/
def pawnEvalBlack : List (List Int) := pawnEvalWhite.reverse

/-- `bishopEvalBlack` (source line 86). -/
def bishopEvalBlack : List (List Int) := bishopEvalWhite.reverse

/-- `rookEvalBlack` (source line 87). -/
def rookEvalBlack : List (List Int) := rookEvalWhite.reverse

/-- `kingEvalBlack` (source line 88). -/
def kingEvalBlack : List (List Int) := kingEvalWhite.reverse

/-- 2-dimensional array indexing `t[row][col]` as used on the tables. -/
def tableGet (t : List (List Int)) (row col : Nat) : Int :=
  (t.getD row []).getD col 0

/-- `getPiecePositionalValue` (source lines 90-100). -/
def getPiecePositionalValue (piece : Piece) (rowIndex colIndex : Nat) : Int :=
  match piece.ptype with
  | .p => if piece.color = .w then tableGet pawnEvalWhite rowIndex colIndex
          else tableGet pawnEvalBlack rowIndex colIndex
  | .n => tableGet knightEval rowIndex colIndex
  | .b => if piece.color = .w then tableGet bishopEvalWhite rowIndex colIndex
          else tableGet bishopEvalBlack rowIndex colIndex
  | .r => if piece.color = .w then tableGet rookEvalWhite rowIndex colIndex
          else tableGet rookEvalBlack rowIndex colIndex
  | .q => tableGet queenEval rowIndex colIndex
  | .k => if piece.color = .w then tableGet kingEvalWhite rowIndex colIndex
          else tableGet kingEvalBlack rowIndex colIndex

/-- Snapshot of a chess.js position through the queries the engine makes:
`board()` (8×8 grid, row 0 = rank 8), `turn()`, `isCheckmate()`,
`isDraw()`.  The rules engine owns the position; these fields are the
values its queries report. -/
structure Game where
  board : Fin 8 → Fin 8 → Option Piece
  turn : Color
  isCheckmate : Bool
  isDraw : Bool

/-- chess.js `isGameOver()` for the statuses the evaluator distinguishes:
checkmate or any draw (stalemate is folded into `isDraw`). -/
def Game.isGameOver (g : Game) : Bool := g.isCheckmate || g.isDraw

/-- Contribution of one square to `totalEvaluation` (source lines 112-121):
`(materialValue + positionalValue) * (piece.color === 'w' ? 1 : -1)`,
`0` for an empty square. -/
def squareValue (pc : Option Piece) (rowIndex colIndex : Nat) : Int :=
  match pc with
  | none => 0
  | some piece =>
      (pieceValues piece.ptype + getPiecePositionalValue piece rowIndex colIndex) *
        (if piece.color = .w then 1 else -1)

/-- `evaluateBoard` (source lines 102-123). -/
def evaluateBoard (g : Game) : Score :=
  if g.isCheckmate then
    if g.turn = .b then .posInf else .negInf
  else if g.isDraw then
    .fin 0
  else
    .fin (∑ r : Fin 8, ∑ c : Fin 8, squareValue (g.board r c) r.val c.val)

/-- The color-mirrored counterpart of a position: every piece reflected
across the board's horizontal midline with its color swapped, side to move
swapped.  The rules engine reports the same checkmate/draw status for the
mirrored position, so those snapshot fields are carried over. -/
def mirrorGame (g : Game) : Game where
  board := fun r c => (g.board r.rev c).map (fun pc => ⟨pc.color.swap, pc.ptype⟩)
  turn := g.turn.swap
  isCheckmate := g.isCheckmate
  isDraw := g.isDraw

instance : Fintype Color := ⟨⟨{.w, .b}, by decide⟩, by intro x; cases x <;> decide⟩

instance : Fintype PT := ⟨⟨{.p, .n, .b, .r, .q, .k}, by decide⟩, by intro x; cases x <;> decide⟩

instance : Fintype Piece :=
  ⟨(Finset.univ ×ˢ Finset.univ).image (fun p : Color × PT => ⟨p.1, p.2⟩), by
    intro x; cases x; simp⟩

/-- For every piece type except knight and queen, the positional table of
the swapped color at the vertically reflected square agrees with the
original color's table at the original square.  (Checked by finite
computation; it fails for knights and queens, whose shared tables are not
vertically symmetric.) -/
theorem mirrorPositional :
    ∀ (col : Color) (pt : PT), pt ≠ .n → pt ≠ .q → ∀ r c : Fin 8,
      getPiecePositionalValue ⟨col.swap, pt⟩ r.rev.val c.val =
        getPiecePositionalValue ⟨col, pt⟩ r.val c.val := by
  decide

theorem squareValue_mirror (pc : Option Piece) (r c : Fin 8)
    (h : ∀ piece : Piece, pc = some piece → piece.ptype ≠ .n ∧ piece.ptype ≠ .q) :
    squareValue (pc.map (fun piece => ⟨piece.color.swap, piece.ptype⟩)) r.rev.val c.val =
      -squareValue pc r.val c.val := by
  cases pc with
  | none => simp [squareValue]
  | some piece =>
      obtain ⟨hn, hq⟩ := h piece rfl
      obtain ⟨col, pt⟩ := piece
      simp only [squareValue, Option.map_some']
      rw [mirrorPositional col pt hn hq r c]
      cases col <;> simp [Color.swap]

/-- C1 (amended): mirror anti-symmetry of the evaluator, restricted to
positions without knights and queens — their shared tables are not
vertically symmetric, so the identity can fail when they are present. -/
theorem evaluateBoard_mirror_noNQ (g : Game)
    (h : ∀ r c : Fin 8, ∀ pc : Piece, g.board r c = some pc →
      pc.ptype ≠ .n ∧ pc.ptype ≠ .q) :
    evaluateBoard (mirrorGame g) = (evaluateBoard g).neg := by
  cases hc : g.isCheckmate with
  | true =>
      cases ht : g.turn <;>
        simp [evaluateBoard, mirrorGame, Color.swap, hc, ht, Score.neg]
  | false =>
      cases hd : g.isDraw with
      | true => simp [evaluateBoard, mirrorGame, hc, hd, Score.neg]
      | false =>
          simp only [evaluateBoard, mirrorGame, hc, hd, Bool.false_eq_true,
            if_false, Score.neg, Score.fin.injEq]
          have reidx :
              ∀ F : Fin 8 → Int, (∑ r : Fin 8, F r.rev) = ∑ r : Fin 8, F r :=
            fun F => Fintype.sum_equiv Fin.revPerm (fun r => F r.rev) F (fun _ => rfl)
          rw [← reidx]
          have pointwise : ∀ r c : Fin 8,
              squareValue (((g.board (Fin.rev r).rev c)).map
                  (fun piece => ⟨piece.color.swap, piece.ptype⟩)) r.rev.val c.val =
                -squareValue (g.board r c) r.val c.val := by
            intro r c
            rw [Fin.rev_rev]
            exact squareValue_mirror (g.board r c) r c (fun piece hp => h r c piece hp)
          calc (∑ r : Fin 8, ∑ c : Fin 8,
                  squareValue ((g.board (Fin.rev r).rev c).map
                    (fun piece => ⟨piece.color.swap, piece.ptype⟩)) r.rev.val c.val)
              = ∑ r : Fin 8, ∑ c : Fin 8, -squareValue (g.board r c) r.val c.val := by
                refine Finset.sum_congr rfl (fun r _ => ?_)
                exact Finset.sum_congr rfl (fun c _ => pointwise r c)
            _ = -∑ r : Fin 8, ∑ c : Fin 8, squareValue (g.board r c) r.val c.val := by
                simp [Finset.sum_neg_distrib]

/-- A legal middlegame-free position used as counterexample: white king e1,
black king e8, white knight d7 (board row 1, column 3), White to move,
no checkmate, no draw. -/
def knightCexGame : Game where
  board := fun r c =>
    if r = (1 : Fin 8) ∧ c = (3 : Fin 8) then some ⟨.w, .n⟩
    else if r = (7 : Fin 8) ∧ c = (4 : Fin 8) then some ⟨.w, .k⟩
    else if r = (0 : Fin 8) ∧ c = (4 : Fin 8) then some ⟨.b, .k⟩
    else none
  turn := .w
  isCheckmate := false
  isDraw := false

/-- C1 counterexample: the mirror identity `evaluate(P) == -evaluate(P')`
fails on `knightCexGame` (320 vs 325 centipawns), because the knight and queen
tables, shared between colors without mirroring, are not vertically
symmetric (rows 1 and 6 of `knightEval` differ at column 3, rows 1 and 6 of
`queenEval` differ at column 2). -/
theorem evaluateBoard_mirror_fails :
    evaluateBoard knightCexGame ≠ (evaluateBoard (mirrorGame knightCexGame)).neg ∧
      evaluateBoard knightCexGame = .fin 320 ∧
      evaluateBoard (mirrorGame knightCexGame) = .fin (-325) ∧
      tableGet knightEval 1 3 ≠ tableGet knightEval 6 3 ∧
      tableGet queenEval 1 2 ≠ tableGet queenEval 6 2 := by
  refine ⟨by decide, by decide, by decide, by decide, by decide⟩

/-- Rook endgame position (white king e1, white rook a1, black king e8,
black pawn a7): no knights or queens, so the mirror identity applies. -/
def rookWitGame : Game where
  board := fun r c =>
    if r = (7 : Fin 8) ∧ c = (4 : Fin 8) then some ⟨.w, .k⟩
    else if r = (7 : Fin 8) ∧ c = (0 : Fin 8) then some ⟨.w, .r⟩
    else if r = (0 : Fin 8) ∧ c = (4 : Fin 8) then some ⟨.b, .k⟩
    else if r = (1 : Fin 8) ∧ c = (0 : Fin 8) then some ⟨.b, .p⟩
    else none
  turn := .b
  isCheckmate := false
  isDraw := false

theorem evaluateBoard_mirror_noNQ_witness :
    evaluateBoard (mirrorGame rookWitGame) = (evaluateBoard rookWitGame).neg :=
  evaluateBoard_mirror_noNQ rookWitGame (by decide)

/-- C4: on any checkmate snapshot the evaluator returns the
extreme-negative sentinel when White is to move and the extreme-positive
sentinel when Black is to move, for every board and draw flag — the
sentinel branch precedes and ignores the material/positional summation. -/
theorem evaluateBoard_checkmate (b : Fin 8 → Fin 8 → Option Piece)
    (t : Color) (d : Bool) :
    evaluateBoard ⟨b, t, true, d⟩ =
      (if t = .w then Score.negInf else Score.posInf) := by
  cases t <;> simp [evaluateBoard]

/-- A chess.js verbose `Move` in the attributes the engine consumes:
`flags` (e.g. `'c'` capture, `'e'` en-passant), moving piece type,
captured piece type, promotion piece type, and `san` (unique among the
legal moves of a position). -/
structure Move where
  flags : List Char
  piece : PT
  captured : Option PT
  promotion : Option PT
  san : String
deriving DecidableEq, Repr

/-- The game tree the engine explores through the rules engine: a position
snapshot together with, for each legal move of `moves({verbose: true})` in
generation order, the move object and the subtree reached by `move`.
Finite because every line of play eventually ends the game (fifty-move and
repetition rules), which is also why the searches terminate. -/
inductive GTree where
  | node : Game → List (Move × GTree) → GTree

/-- The position snapshot at the root of a subtree. -/
def GTree.game : GTree → Game
  | .node g _ => g

/-- The legal moves and their subtrees, in generation order. -/
def GTree.children : GTree → List (Move × GTree)
  | .node _ cs => cs

/-- JS `pieceValues[x] || 0`: table lookup defaulting to `0` when the
field is `undefined`. -/
def pieceValuesD : Option PT → Int
  | some pt => pieceValues pt
  | none => 0

/-- Quiescence capture-ordering score (source lines 138-139):
`(pieceValues[m.captured!] || 0) - (pieceValues[m.piece] || 0)` (the
second `|| 0` is inert since every move has a mover). -/
def captureScore (m : Move) : Int := pieceValuesD m.captured - pieceValues m.piece

/-- The comparator `(a, b) => bScore - aScore` of source line 137 as the
"a may stay before b" relation of a stable sort: nonpositive comparator
value, i.e. descending capture score. -/
def qSortLE (a b : Move × GTree) : Bool := decide (captureScore b.1 ≤ captureScore a.1)

/-- `game.moves({verbose: true}).filter(move => move.flags.includes('c'))`
(source line 136). -/
def captureMoves (children : List (Move × GTree)) : List (Move × GTree) :=
  children.filter (fun p => p.1.flags.contains 'c')

/-- Move-ordering score of `minimax` (source lines 169-179): captures score
`10 * value(captured) - value(mover)`, promotions add the promoted piece's
value, all other moves score `0`.  (`captured` is set by the rules engine
whenever flag `'c'` is, so the `undefined`-lookup default is unreachable.) -/
def moveOrderScore (m : Move) : Int :=
  (if m.flags.contains 'c' then 10 * pieceValuesD m.captured - pieceValues m.piece else 0) +
    (match m.promotion with
     | some pr => pieceValues pr
     | none => 0)

/-- The comparator `(a, b) => bScore - aScore` of source lines 169-179 as a
stable-sort relation: descending move-ordering score. -/
def mmSortLE (a b : Move × GTree) : Bool :=
  decide (moveOrderScore b.1 ≤ moveOrderScore a.1)

theorem sizeOf_filter_le {α : Type} [SizeOf α] (p : α → Bool) (l : List α) :
    sizeOf (l.filter p) ≤ sizeOf l := by
  induction l with
  | nil => simp
  | cons a l ih =>
      simp only [List.filter_cons]
      cases p a <;> simp <;> omega

theorem sizeOf_mergeSort_le {α : Type} [SizeOf α] (le : α → α → Bool)
    (p : α → Bool) (l : List α) : sizeOf ((l.filter p).mergeSort le) ≤ sizeOf l := by
  have h := (List.mergeSort_perm (l.filter p) le).sizeOf_eq_sizeOf
  have h2 := sizeOf_filter_le p l
  omega

mutual

/-- `quiescence` (source lines 125-158): stand-pat cutoff/raise, then a
fail-hard alpha-beta walk over the capture moves in descending
capture-score order, each applied and undone around the recursive call. -/
def quiescence : GTree → Score → Score → Bool → Score
  | .node g children, alpha, beta, isMaximizingPlayer =>
    let stand_pat := evaluateBoard g
    if isMaximizingPlayer then
      if beta ≤ stand_pat then beta
      else
        qLoop ((captureMoves children).mergeSort qSortLE)
          (if alpha < stand_pat then stand_pat else alpha) beta true
    else
      if stand_pat ≤ alpha then alpha
      else
        qLoop ((captureMoves children).mergeSort qSortLE)
          alpha (if stand_pat < beta then stand_pat else beta) false
termination_by t _ _ _ => sizeOf t
decreasing_by
  all_goals
    have h1 := sizeOf_mergeSort_le qSortLE (fun p => p.1.flags.contains 'c') children
    simp only [captureMoves]
    simp at h1 ⊢
    omega

/-- The `for (const move of captureMoves)` loop of `quiescence` (source
lines 143-155) followed by the final `return` (line 157): alpha/beta are
the loop-carried bounds, early returns model the fail-high/fail-low
cutoffs. -/
def qLoop : List (Move × GTree) → Score → Score → Bool → Score
  | [], alpha, beta, isMaximizingPlayer => if isMaximizingPlayer then alpha else beta
  | (_, sub) :: rest, alpha, beta, isMaximizingPlayer =>
    let score := quiescence sub alpha beta (!isMaximizingPlayer)
    if isMaximizingPlayer then
      if beta ≤ score then beta
      else if alpha < score then qLoop rest score beta true
      else qLoop rest alpha beta true
    else
      if score ≤ alpha then alpha
      else if score < beta then qLoop rest alpha score false
      else qLoop rest alpha beta false
termination_by l _ _ _ => sizeOf l
decreasing_by
  all_goals simp
  all_goals omega

end

theorem sizeOf_mergeSort_eq {α : Type} [SizeOf α] (le : α → α → Bool) (l : List α) :
    sizeOf (l.mergeSort le) = sizeOf l :=
  (List.mergeSort_perm l le).sizeOf_eq_sizeOf

mutual

/-- `minimax` (source lines 161-210): at depth `0` or game over delegate to
`quiescence` with the same window; otherwise walk all legal moves in
descending move-ordering score, each applied and undone around the
recursive call, with alpha-beta pruning.  Depth is a JS number: the code
performs no validation, only the exact test `depth === 0`. -/
def minimax : GTree → Int → Score → Score → Bool → Score
  | .node g children, depth, alpha, beta, isMaximizingPlayer =>
    if depth = 0 ∨ g.isGameOver = true then
      quiescence (.node g children) alpha beta isMaximizingPlayer
    else
      if isMaximizingPlayer then
        mmLoopMax (children.mergeSort mmSortLE) depth .negInf alpha beta
      else
        mmLoopMin (children.mergeSort mmSortLE) depth .posInf alpha beta
termination_by t _ _ _ _ => sizeOf t
decreasing_by
  all_goals
    have h1 := sizeOf_mergeSort_eq mmSortLE children
    simp
    omega

/-- The maximizing-player loop of `minimax` (source lines 183-195):
`maxEval`/`alpha` are loop-carried, `break` on `beta <= alpha`, final
`return maxEval`. -/
def mmLoopMax : List (Move × GTree) → Int → Score → Score → Score → Score
  | [], _, maxEval, _, _ => maxEval
  | (_, sub) :: rest, depth, maxEval, alpha, beta =>
    let currentEval := minimax sub (depth - 1) alpha beta false
    let maxEval' := max maxEval currentEval
    let alpha' := max alpha currentEval
    if beta ≤ alpha' then maxEval'
    else mmLoopMax rest depth maxEval' alpha' beta
termination_by l _ _ _ _ => sizeOf l
decreasing_by
  all_goals simp
  all_goals omega

/-- The minimizing-player loop of `minimax` (source lines 196-209):
`minEval`/`beta` are loop-carried, `break` on `beta <= alpha`, final
`return minEval`. -/
def mmLoopMin : List (Move × GTree) → Int → Score → Score → Score → Score
  | [], _, minEval, _, _ => minEval
  | (_, sub) :: rest, depth, minEval, alpha, beta =>
    let currentEval := minimax sub (depth - 1) alpha beta true
    let minEval' := min minEval currentEval
    let beta' := min beta currentEval
    if beta' ≤ alpha then minEval'
    else mmLoopMin rest depth minEval' alpha beta'
termination_by l _ _ _ _ => sizeOf l
decreasing_by
  all_goals simp
  all_goals omega

end

mutual

/-- The exhaustive (window-free) quiescence value that §4.2 of the spec
describes: the maximizing side may stand pat on the static evaluation or
continue with any capture, so the value is the max (resp. min) of the
stand-pat score and the values of all capture continuations. -/
def qspec : GTree → Bool → Score
  | .node g children, m => qspecList (captureMoves children) m (evaluateBoard g)
termination_by t _ => sizeOf t
decreasing_by
  all_goals
    have h1 := sizeOf_filter_le (fun p : Move × GTree => p.1.flags.contains 'c') children
    simp only [captureMoves]
    simp at h1 ⊢
    omega

/-- Fold of `qspec` over a capture list with the stand-pat score as base. -/
def qspecList : List (Move × GTree) → Bool → Score → Score
  | [], _, base => base
  | (_, sub) :: rest, m, base =>
    if m then max (qspec sub false) (qspecList rest true base)
    else min (qspec sub true) (qspecList rest false base)
termination_by l _ _ => sizeOf l
decreasing_by
  all_goals simp
  all_goals omega

end

/-- Maximum of the `qspec` values of capture continuations (`-∞` when no
captures are available). -/
def qfoldMax : List (Move × GTree) → Score
  | [] => .negInf
  | (_, sub) :: rest => max (qspec sub false) (qfoldMax rest)

/-- Minimum of the `qspec` values of capture continuations (`+∞` when no
captures are available). -/
def qfoldMin : List (Move × GTree) → Score
  | [] => .posInf
  | (_, sub) :: rest => min (qspec sub true) (qfoldMin rest)

mutual

/-- Modelled from the spec (§8, pruning equivalence): the exhaustive,
non-pruned minimax search of the same depth — identical base case, but
every move of every node is searched with no alpha-beta window, leaves
valued by the window-free quiescence value `qspec`. -/
def exhaustiveMinimax : GTree → Int → Bool → Score
  | .node g children, depth, m =>
    if depth = 0 ∨ g.isGameOver = true then qspec (.node g children) m
    else if m then exhFoldMax children depth
    else exhFoldMin children depth

/-- Maximum of the exhaustive values of all moves (`-∞` base, as in the
source's `maxEval` initialization). -/
def exhFoldMax : List (Move × GTree) → Int → Score
  | [], _ => .negInf
  | (_, sub) :: rest, depth =>
    max (exhaustiveMinimax sub (depth - 1) false) (exhFoldMax rest depth)

/-- Minimum of the exhaustive values of all moves (`+∞` base, as in the
source's `minEval` initialization). -/
def exhFoldMin : List (Move × GTree) → Int → Score
  | [], _ => .posInf
  | (_, sub) :: rest, depth =>
    min (exhaustiveMinimax sub (depth - 1) true) (exhFoldMin rest depth)

end

/-- Well-formed search trees: a position that is not game over has at
least one legal move (true of every reachable chess position, where no
legal moves means checkmate or stalemate, both game over). -/
inductive WF : GTree → Prop
  | node : ∀ (g : Game) (children : List (Move × GTree)),
      (g.isGameOver = false → children ≠ []) →
      (∀ p ∈ children, WF p.2) → WF (.node g children)

theorem if_lt_eq_max (a s : Score) : (if a < s then s else a) = max a s := by
  by_cases h : a < s
  · rw [if_pos h, max_eq_right (le_of_lt h)]
  · rw [if_neg h, max_eq_left (le_of_not_lt h)]

theorem if_lt_eq_min (s b : Score) : (if s < b then s else b) = min b s := by
  by_cases h : s < b
  · rw [if_pos h, min_eq_right (le_of_lt h)]
  · rw [if_neg h, min_eq_left (le_of_not_lt h)]

theorem clamp_comm (a b v : Score) (hab : a ≤ b) :
    max a (min b v) = min b (max a v) := by
  rw [max_min_distrib_left, max_eq_right hab]

theorem qspecList_true (l : List (Move × GTree)) (base : Score) :
    qspecList l true base = max base (qfoldMax l) := by
  induction l with
  | nil => simp [qspecList, qfoldMax, max_eq_left (Score.negInf_le base)]
  | cons p rest ih =>
      obtain ⟨mv, sub⟩ := p
      simp only [qspecList, qfoldMax, if_pos, ih]
      rw [max_left_comm]

theorem qspecList_false (l : List (Move × GTree)) (base : Score) :
    qspecList l false base = min base (qfoldMin l) := by
  induction l with
  | nil => simp [qspecList, qfoldMin, min_eq_left (Score.le_posInf base)]
  | cons p rest ih =>
      obtain ⟨mv, sub⟩ := p
      simp only [qspecList, qfoldMin, ih, Bool.false_eq_true, if_false]
      rw [min_left_comm]

theorem qfoldMax_perm {l₁ l₂ : List (Move × GTree)} (h : l₁.Perm l₂) :
    qfoldMax l₁ = qfoldMax l₂ := by
  induction h with
  | nil => rfl
  | cons x _ ih => simp [qfoldMax, ih]
  | swap x y l => simp [qfoldMax, max_left_comm]
  | trans _ _ ih₁ ih₂ => rw [ih₁, ih₂]

theorem qfoldMin_perm {l₁ l₂ : List (Move × GTree)} (h : l₁.Perm l₂) :
    qfoldMin l₁ = qfoldMin l₂ := by
  induction h with
  | nil => rfl
  | cons x _ ih => simp [qfoldMin, ih]
  | swap x y l => simp [qfoldMin, min_left_comm]
  | trans _ _ ih₁ ih₂ => rw [ih₁, ih₂]

theorem exhFoldMax_perm {l₁ l₂ : List (Move × GTree)} (d : Int) (h : l₁.Perm l₂) :
    exhFoldMax l₁ d = exhFoldMax l₂ d := by
  induction h with
  | nil => rfl
  | cons x _ ih => simp [exhFoldMax, ih]
  | swap x y l => simp [exhFoldMax, max_left_comm]
  | trans _ _ ih₁ ih₂ => rw [ih₁, ih₂]

theorem exhFoldMin_perm {l₁ l₂ : List (Move × GTree)} (d : Int) (h : l₁.Perm l₂) :
    exhFoldMin l₁ d = exhFoldMin l₂ d := by
  induction h with
  | nil => rfl
  | cons x _ ih => simp [exhFoldMin, ih]
  | swap x y l => simp [exhFoldMin, min_left_comm]
  | trans _ _ ih₁ ih₂ => rw [ih₁, ih₂]

theorem qLoop_clamp_max (beta : Score) (l : List (Move × GTree)) :
    ∀ alpha : Score, alpha ≤ beta →
    (∀ p ∈ l, ∀ a b : Score, a ≤ b →
      quiescence p.2 a b false = max a (min b (qspec p.2 false))) →
    qLoop l alpha beta true = max alpha (min beta (qfoldMax l)) := by
  induction l with
  | nil =>
      intro alpha hab _
      simp [qLoop, qfoldMax, min_eq_right (Score.negInf_le beta),
        max_eq_left (Score.negInf_le alpha)]
  | cons p rest ih =>
      intro alpha hab hcl
      obtain ⟨mv, sub⟩ := p
      have hq := hcl (mv, sub) (List.mem_cons_self _ _) alpha beta hab
      simp only [qLoop, Bool.not_true, qfoldMax, if_true]
      have hSle : quiescence sub alpha beta false ≤ beta := by
        rw [hq]; exact max_le hab (min_le_left _ _)
      have hSge : alpha ≤ quiescence sub alpha beta false := by
        rw [hq]; exact le_max_left _ _
      by_cases h1 : beta ≤ quiescence sub alpha beta false
      · rw [if_pos h1]
        have hSb : quiescence sub alpha beta false = beta := le_antisymm hSle h1
        rcases eq_or_lt_of_le hab with heq | hlt
        · rw [← heq]
          exact (max_eq_left (min_le_left _ _)).symm
        · have hmin : min beta (qspec sub false) = beta := by
            rcases max_cases alpha (min beta (qspec sub false)) with ⟨hm, _⟩ | ⟨hm, _⟩
            · rw [hq, hm] at hSb
              exact absurd hSb (ne_of_lt hlt)
            · rw [hq, hm] at hSb
              exact hSb
          have hqb : beta ≤ qspec sub false := min_eq_left_iff.mp hmin
          rw [min_eq_left (le_trans hqb (le_max_left _ _)), max_eq_right hab]
      · rw [if_neg h1]
        have hSlt : quiescence sub alpha beta false < beta := not_le.mp h1
        by_cases h2 : alpha < quiescence sub alpha beta false
        · rw [if_pos h2]
          rw [ih _ (le_of_lt hSlt) (fun p hp => hcl p (List.mem_cons_of_mem _ hp))]
          have hSq : quiescence sub alpha beta false = qspec sub false := by
            rcases max_cases alpha (min beta (qspec sub false)) with ⟨hm, _⟩ | ⟨hm, _⟩
            · exact absurd (hq.trans hm) (ne_of_gt h2)
            · have hS2 : quiescence sub alpha beta false = min beta (qspec sub false) :=
                hq.trans hm
              rcases min_cases beta (qspec sub false) with ⟨hm2, _⟩ | ⟨hm2, _⟩
              · rw [hm2] at hS2
                exact absurd hS2 (ne_of_lt hSlt)
              · rw [hm2] at hS2
                exact hS2
          have hαq : alpha < qspec sub false := hSq ▸ h2
          have hqβ : qspec sub false < beta := hSq ▸ hSlt
          rw [min_max_distrib_left, min_eq_right (le_of_lt hqβ), ← max_assoc,
            max_eq_right (le_of_lt hαq), hSq]
        · rw [if_neg h2]
          rw [ih _ hab (fun p hp => hcl p (List.mem_cons_of_mem _ hp))]
          have hSa : quiescence sub alpha beta false = alpha :=
            le_antisymm (le_of_not_lt h2) hSge
          have hmq : min beta (qspec sub false) ≤ alpha :=
            max_eq_left_iff.mp (hq ▸ hSa)
          rw [min_max_distrib_left, ← max_assoc, max_eq_left hmq]

theorem qLoop_clamp_min (alpha : Score) (l : List (Move × GTree)) :
    ∀ beta : Score, alpha ≤ beta →
    (∀ p ∈ l, ∀ a b : Score, a ≤ b →
      quiescence p.2 a b true = max a (min b (qspec p.2 true))) →
    qLoop l alpha beta false = min beta (max alpha (qfoldMin l)) := by
  induction l with
  | nil =>
      intro beta hab _
      simp [qLoop, qfoldMin, max_eq_right (Score.le_posInf alpha),
        min_eq_left (Score.le_posInf beta)]
  | cons p rest ih =>
      intro beta hab hcl
      obtain ⟨mv, sub⟩ := p
      have hq := hcl (mv, sub) (List.mem_cons_self _ _) alpha beta hab
      simp only [qLoop, Bool.not_false, qfoldMin, if_false, Bool.false_eq_true]
      have hSle : quiescence sub alpha beta true ≤ beta := by
        rw [hq]; exact max_le hab (min_le_left _ _)
      have hSge : alpha ≤ quiescence sub alpha beta true := by
        rw [hq]; exact le_max_left _ _
      by_cases h1 : quiescence sub alpha beta true ≤ alpha
      · rw [if_pos h1]
        have hSa : quiescence sub alpha beta true = alpha := le_antisymm h1 hSge
        rcases eq_or_lt_of_le hab with heq | hlt
        · rw [← heq]
          exact (min_eq_left (le_max_left _ _)).symm
        · have hmq : min beta (qspec sub true) ≤ alpha :=
            max_eq_left_iff.mp (hq ▸ hSa)
          have hqa : qspec sub true ≤ alpha := by
            rcases min_cases beta (qspec sub true) with ⟨hm, _⟩ | ⟨hm, _⟩
            · rw [hm] at hmq
              exact absurd (lt_of_le_of_lt hmq hlt) (lt_irrefl beta)
            · rw [hm] at hmq
              exact hmq
          rw [max_eq_left (le_trans (min_le_left _ _) hqa), min_eq_right (le_of_lt hlt)]
      · rw [if_neg h1]
        have hSgt : alpha < quiescence sub alpha beta true := not_le.mp h1
        by_cases h2 : quiescence sub alpha beta true < beta
        · rw [if_pos h2]
          rw [ih _ (le_of_lt hSgt) (fun p hp => hcl p (List.mem_cons_of_mem _ hp))]
          have hSq : quiescence sub alpha beta true = qspec sub true := by
            rcases max_cases alpha (min beta (qspec sub true)) with ⟨hm, _⟩ | ⟨hm, _⟩
            · exact absurd (hq.trans hm) (ne_of_gt hSgt)
            · have hS2 : quiescence sub alpha beta true = min beta (qspec sub true) :=
                hq.trans hm
              rcases min_cases beta (qspec sub true) with ⟨hm2, _⟩ | ⟨hm2, _⟩
              · rw [hm2] at hS2
                exact absurd hS2 (ne_of_lt h2)
              · rw [hm2] at hS2
                exact hS2
          have hαq : alpha < qspec sub true := hSq ▸ hSgt
          have hqβ : qspec sub true < beta := hSq ▸ h2
          rw [max_min_distrib_left, max_eq_right (le_of_lt hαq), ← min_assoc,
            min_eq_right (le_of_lt hqβ), hSq]
        · rw [if_neg h2]
          rw [ih _ hab (fun p hp => hcl p (List.mem_cons_of_mem _ hp))]
          have hSb : quiescence sub alpha beta true = beta :=
            le_antisymm hSle (le_of_not_lt h2)
          have hαβ : alpha < beta := lt_of_lt_of_le hSgt hSle
          have hbq : beta ≤ qspec sub true := by
            rcases max_cases alpha (min beta (qspec sub true)) with ⟨hm, _⟩ | ⟨hm, _⟩
            · rw [hq, hm] at hSb
              exact absurd hSb (ne_of_lt hαβ)
            · have : min beta (qspec sub true) = beta := (hq.trans hm).symm.trans hSb
              exact min_eq_left_iff.mp this
          rw [max_min_distrib_left, ← min_assoc,
            min_eq_left (le_trans hbq (le_max_right alpha _))]

theorem sizeOf_sub_lt_node {p : Move × GTree} {children : List (Move × GTree)}
    (hp : p ∈ children) (g : Game) :
    sizeOf p.2 < sizeOf (GTree.node g children) := by
  have h1 := List.sizeOf_lt_of_mem hp
  obtain ⟨mv, sub⟩ := p
  simp at h1 ⊢
  omega

theorem quiescence_clamp :
    ∀ (n : Nat) (t : GTree), sizeOf t ≤ n → ∀ (a b : Score), a ≤ b → ∀ m : Bool,
      quiescence t a b m = max a (min b (qspec t m)) := by
  intro n
  induction n with
  | zero =>
      intro t ht
      obtain ⟨g, children⟩ := t
      exfalso
      simp at ht
  | succ n ih =>
      intro t ht a b hab m
      obtain ⟨g, children⟩ := t
      have hnode : sizeOf (GTree.node g children) ≤ n + 1 := ht
      have hsub : ∀ p ∈ (captureMoves children).mergeSort qSortLE,
          ∀ (x y : Score), x ≤ y → ∀ mm : Bool,
          quiescence p.2 x y mm = max x (min y (qspec p.2 mm)) := by
        intro p hp x y hxy mm
        have hmem : p ∈ children :=
          List.mem_of_mem_filter (List.mem_mergeSort.mp hp)
        have hlt := sizeOf_sub_lt_node hmem g
        exact ih p.2 (by omega) x y hxy mm
      have hperm := List.mergeSort_perm (captureMoves children) qSortLE
      have hq : qspec (GTree.node g children) m =
          qspecList (captureMoves children) m (evaluateBoard g) := by
        simp [qspec]
      cases m with
      | true =>
          simp only [quiescence, if_true]
          rw [hq, qspecList_true]
          by_cases hsp : b ≤ evaluateBoard g
          · rw [if_pos hsp]
            rw [min_eq_left (le_trans hsp (le_max_left _ _)), max_eq_right hab]
          · rw [if_neg hsp, if_lt_eq_max]
            have hspb : evaluateBoard g < b := not_le.mp hsp
            rw [qLoop_clamp_max b _ (max a (evaluateBoard g))
              (max_le hab (le_of_lt hspb))
              (fun p hp x y hxy => hsub p hp x y hxy false)]
            rw [qfoldMax_perm hperm]
            rw [min_max_distrib_left, min_eq_right (le_of_lt hspb), ← max_assoc]
      | false =>
          simp only [quiescence, Bool.false_eq_true, if_false]
          rw [hq, qspecList_false]
          by_cases hsp : evaluateBoard g ≤ a
          · rw [if_pos hsp]
            have h2 : min (evaluateBoard g) (qfoldMin (captureMoves children)) ≤ a :=
              le_trans (min_le_left _ _) hsp
            rw [min_eq_right (le_trans h2 hab), max_eq_left h2]
          · rw [if_neg hsp, if_lt_eq_min]
            have hspa : a < evaluateBoard g := not_le.mp hsp
            rw [qLoop_clamp_min a _ (min b (evaluateBoard g))
              (le_min hab (le_of_lt hspa))
              (fun p hp x y hxy => hsub p hp x y hxy true)]
            rw [qfoldMin_perm hperm]
            rw [← min_assoc, clamp_comm a _ _ (le_min hab (le_of_lt hspa))]

theorem mmLoopMax_clamp (d : Int) (beta : Score) (l : List (Move × GTree)) :
    ∀ a : Score, a ≤ beta →
    (∀ p ∈ l, ∀ x y : Score, x ≤ y →
      minimax p.2 (d - 1) x y false = max x (min y (exhaustiveMinimax p.2 (d - 1) false))) →
    mmLoopMax l d a a beta = max a (min beta (exhFoldMax l d)) := by
  induction l with
  | nil =>
      intro a hab _
      simp [mmLoopMax, exhFoldMax, min_eq_right (Score.negInf_le beta),
        max_eq_left (Score.negInf_le a)]
  | cons p rest ih =>
      intro a hab hcl
      obtain ⟨mv, sub⟩ := p
      have hc := hcl (mv, sub) (List.mem_cons_self _ _) a beta hab
      simp only [mmLoopMax, exhFoldMax]
      have hcge : a ≤ minimax sub (d - 1) a beta false := by
        rw [hc]; exact le_max_left _ _
      have hcle : minimax sub (d - 1) a beta false ≤ beta := by
        rw [hc]; exact max_le hab (min_le_left _ _)
      have hmax : max a (minimax sub (d - 1) a beta false) =
          minimax sub (d - 1) a beta false := max_eq_right hcge
      rw [hmax]
      by_cases h1 : beta ≤ minimax sub (d - 1) a beta false
      · rw [if_pos h1]
        have hcb : minimax sub (d - 1) a beta false = beta := le_antisymm hcle h1
        rcases eq_or_lt_of_le hab with heq | hlt
        · rw [← heq] at hcb ⊢
          rw [hcb, max_eq_left (min_le_left _ _)]
        · have hmin : min beta (exhaustiveMinimax sub (d - 1) false) = beta := by
            rcases max_cases a (min beta (exhaustiveMinimax sub (d - 1) false)) with
              ⟨hm, _⟩ | ⟨hm, _⟩
            · rw [hc, hm] at hcb
              exact absurd hcb (ne_of_lt hlt)
            · rw [hc, hm] at hcb
              exact hcb
          have hqb : beta ≤ exhaustiveMinimax sub (d - 1) false := min_eq_left_iff.mp hmin
          rw [hcb, min_eq_left (le_trans hqb (le_max_left _ _)), max_eq_right hab]
      · rw [if_neg h1]
        have h2 : minimax sub (d - 1) a beta false < beta := not_le.mp h1
        rw [ih _ (le_of_lt h2) (fun p hp => hcl p (List.mem_cons_of_mem _ hp))]
        rw [hc, max_assoc, ← min_max_distrib_left]

theorem mmLoopMin_clamp (d : Int) (alpha : Score) (l : List (Move × GTree)) :
    ∀ b : Score, alpha ≤ b →
    (∀ p ∈ l, ∀ x y : Score, x ≤ y →
      minimax p.2 (d - 1) x y true = max x (min y (exhaustiveMinimax p.2 (d - 1) true))) →
    mmLoopMin l d b alpha b = min b (max alpha (exhFoldMin l d)) := by
  induction l with
  | nil =>
      intro b hab _
      simp [mmLoopMin, exhFoldMin, max_eq_right (Score.le_posInf alpha),
        min_eq_left (Score.le_posInf b)]
  | cons p rest ih =>
      intro b hab hcl
      obtain ⟨mv, sub⟩ := p
      have hc := hcl (mv, sub) (List.mem_cons_self _ _) alpha b hab
      have hcd : minimax sub (d - 1) alpha b true =
          min b (max alpha (exhaustiveMinimax sub (d - 1) true)) := by
        rw [hc, clamp_comm _ _ _ hab]
      simp only [mmLoopMin, exhFoldMin]
      have hcge : alpha ≤ minimax sub (d - 1) alpha b true := by
        rw [hc]; exact le_max_left _ _
      have hcle : minimax sub (d - 1) alpha b true ≤ b := by
        rw [hc]; exact max_le hab (min_le_left _ _)
      have hmin : min b (minimax sub (d - 1) alpha b true) =
          minimax sub (d - 1) alpha b true := min_eq_right hcle
      rw [hmin]
      by_cases h1 : minimax sub (d - 1) alpha b true ≤ alpha
      · rw [if_pos h1]
        have hca : minimax sub (d - 1) alpha b true = alpha := le_antisymm h1 hcge
        rcases eq_or_lt_of_le hab with heq | hlt
        · rw [← heq] at hca ⊢
          rw [hca, min_eq_left (le_max_left _ _)]
        · have hmax2 : max alpha (exhaustiveMinimax sub (d - 1) true) = alpha := by
            rcases min_cases b (max alpha (exhaustiveMinimax sub (d - 1) true)) with
              ⟨hm, _⟩ | ⟨hm, _⟩
            · rw [hcd, hm] at hca
              exact absurd hca (ne_of_gt hlt)
            · rw [hcd, hm] at hca
              exact hca
          have hqa : exhaustiveMinimax sub (d - 1) true ≤ alpha := max_eq_left_iff.mp hmax2
          rw [hca, max_eq_left (le_trans (min_le_left _ _) hqa),
            min_eq_right hab]
      · rw [if_neg h1]
        have h2 : alpha < minimax sub (d - 1) alpha b true := not_le.mp h1
        rw [ih _ (le_of_lt h2) (fun p hp => hcl p (List.mem_cons_of_mem _ hp))]
        rw [hcd, min_assoc, ← max_min_distrib_left]

theorem mmLoopMax_start (d : Int) (beta : Score) (l : List (Move × GTree))
    (hne : l ≠ []) :
    ∀ a : Score, a ≤ beta →
    (∀ p ∈ l, ∀ x y : Score, x ≤ y →
      minimax p.2 (d - 1) x y false = max x (min y (exhaustiveMinimax p.2 (d - 1) false))) →
    mmLoopMax l d .negInf a beta = max a (min beta (exhFoldMax l d)) := by
  cases l with
  | nil => exact absurd rfl hne
  | cons p rest =>
      intro a hab hcl
      obtain ⟨mv, sub⟩ := p
      have hc := hcl (mv, sub) (List.mem_cons_self _ _) a beta hab
      simp only [mmLoopMax, exhFoldMax]
      have hcge : a ≤ minimax sub (d - 1) a beta false := by
        rw [hc]; exact le_max_left _ _
      have hcle : minimax sub (d - 1) a beta false ≤ beta := by
        rw [hc]; exact max_le hab (min_le_left _ _)
      rw [max_eq_right (Score.negInf_le _), max_eq_right hcge]
      by_cases h1 : beta ≤ minimax sub (d - 1) a beta false
      · rw [if_pos h1]
        have hcb : minimax sub (d - 1) a beta false = beta := le_antisymm hcle h1
        rcases eq_or_lt_of_le hab with heq | hlt
        · rw [← heq] at hcb ⊢
          rw [hcb, max_eq_left (min_le_left _ _)]
        · have hmin : min beta (exhaustiveMinimax sub (d - 1) false) = beta := by
            rcases max_cases a (min beta (exhaustiveMinimax sub (d - 1) false)) with
              ⟨hm, _⟩ | ⟨hm, _⟩
            · rw [hc, hm] at hcb
              exact absurd hcb (ne_of_lt hlt)
            · rw [hc, hm] at hcb
              exact hcb
          have hqb : beta ≤ exhaustiveMinimax sub (d - 1) false := min_eq_left_iff.mp hmin
          rw [hcb, min_eq_left (le_trans hqb (le_max_left _ _)), max_eq_right hab]
      · rw [if_neg h1]
        have h2 : minimax sub (d - 1) a beta false < beta := not_le.mp h1
        rw [mmLoopMax_clamp d beta rest _ (le_of_lt h2)
          (fun p hp => hcl p (List.mem_cons_of_mem _ hp))]
        rw [hc, max_assoc, ← min_max_distrib_left]

theorem mmLoopMin_start (d : Int) (alpha : Score) (l : List (Move × GTree))
    (hne : l ≠ []) :
    ∀ b : Score, alpha ≤ b →
    (∀ p ∈ l, ∀ x y : Score, x ≤ y →
      minimax p.2 (d - 1) x y true = max x (min y (exhaustiveMinimax p.2 (d - 1) true))) →
    mmLoopMin l d .posInf alpha b = min b (max alpha (exhFoldMin l d)) := by
  cases l with
  | nil => exact absurd rfl hne
  | cons p rest =>
      intro b hab hcl
      obtain ⟨mv, sub⟩ := p
      have hc := hcl (mv, sub) (List.mem_cons_self _ _) alpha b hab
      have hcd : minimax sub (d - 1) alpha b true =
          min b (max alpha (exhaustiveMinimax sub (d - 1) true)) := by
        rw [hc, clamp_comm _ _ _ hab]
      simp only [mmLoopMin, exhFoldMin]
      have hcge : alpha ≤ minimax sub (d - 1) alpha b true := by
        rw [hc]; exact le_max_left _ _
      have hcle : minimax sub (d - 1) alpha b true ≤ b := by
        rw [hc]; exact max_le hab (min_le_left _ _)
      rw [min_eq_right (Score.le_posInf _), min_eq_right hcle]
      by_cases h1 : minimax sub (d - 1) alpha b true ≤ alpha
      · rw [if_pos h1]
        have hca : minimax sub (d - 1) alpha b true = alpha := le_antisymm h1 hcge
        rcases eq_or_lt_of_le hab with heq | hlt
        · rw [← heq] at hca ⊢
          rw [hca, min_eq_left (le_max_left _ _)]
        · have hmax2 : max alpha (exhaustiveMinimax sub (d - 1) true) = alpha := by
            rcases min_cases b (max alpha (exhaustiveMinimax sub (d - 1) true)) with
              ⟨hm, _⟩ | ⟨hm, _⟩
            · rw [hcd, hm] at hca
              exact absurd hca (ne_of_gt hlt)
            · rw [hcd, hm] at hca
              exact hca
          have hqa : exhaustiveMinimax sub (d - 1) true ≤ alpha := max_eq_left_iff.mp hmax2
          rw [hca, max_eq_left (le_trans (min_le_left _ _) hqa), min_eq_right hab]
      · rw [if_neg h1]
        have h2 : alpha < minimax sub (d - 1) alpha b true := not_le.mp h1
        rw [mmLoopMin_clamp d alpha rest _ (le_of_lt h2)
          (fun p hp => hcl p (List.mem_cons_of_mem _ hp))]
        rw [hcd, min_assoc, ← max_min_distrib_left]

theorem minimax_clamp :
    ∀ (n : Nat) (t : GTree), sizeOf t ≤ n → WF t →
      ∀ (d : Int) (a b : Score), a ≤ b → ∀ m : Bool,
        minimax t d a b m = max a (min b (exhaustiveMinimax t d m)) := by
  intro n
  induction n with
  | zero =>
      intro t ht
      obtain ⟨g, children⟩ := t
      exfalso
      simp at ht
  | succ n ih =>
      intro t ht hwf d a b hab m
      obtain ⟨g, children⟩ := t
      cases hwf with
      | node _ _ hne hch =>
          have hsub : ∀ p ∈ children.mergeSort mmSortLE, ∀ (x y : Score), x ≤ y →
              ∀ mm : Bool,
              minimax p.2 (d - 1) x y mm =
                max x (min y (exhaustiveMinimax p.2 (d - 1) mm)) := by
            intro p hp x y hxy mm
            have hmem : p ∈ children := List.mem_mergeSort.mp hp
            have hlt := sizeOf_sub_lt_node hmem g
            exact ih p.2 (by omega) (hch p hmem) (d - 1) x y hxy mm
          have hperm := List.mergeSort_perm children mmSortLE
          by_cases hguard : d = 0 ∨ g.isGameOver = true
          · simp only [minimax, exhaustiveMinimax]
            rw [if_pos hguard, if_pos hguard]
            exact quiescence_clamp (sizeOf (GTree.node g children)) _ le_rfl a b hab m
          · have hgo : g.isGameOver = false := by
              rcases Bool.eq_false_or_eq_true g.isGameOver with h | h
              · exact absurd (Or.inr h) hguard
              · exact h
            have hne' : children ≠ [] := hne hgo
            have hsne : children.mergeSort mmSortLE ≠ [] := by
              intro hnil
              have hlen := hperm.length_eq
              rw [hnil] at hlen
              exact hne' (List.eq_nil_of_length_eq_zero hlen.symm)
            cases m with
            | true =>
                simp only [minimax, exhaustiveMinimax, if_true]
                rw [if_neg hguard, if_neg hguard]
                rw [mmLoopMax_start d b _ hsne a hab
                  (fun p hp x y hxy => hsub p hp x y hxy false)]
                rw [exhFoldMax_perm d hperm]
            | false =>
                simp only [minimax, exhaustiveMinimax, Bool.false_eq_true, if_false]
                rw [if_neg hguard, if_neg hguard]
                rw [mmLoopMin_start d a _ hsne b hab
                  (fun p hp x y hxy => hsub p hp x y hxy true)]
                rw [exhFoldMin_perm d hperm, clamp_comm a b _ hab]

/-- C2: on every well-formed search tree, at any depth at most 3 (the
result holds for all depths), the value `minimax` computes with the
initial window `(-∞, +∞)` — which is exactly what the root driver computes
for every root move — equals the value of the exhaustive, non-pruned
minimax search of the same depth: pruning never changes the value. -/
theorem minimax_fullWindow_eq_exhaustive (t : GTree) (d : Int) (m : Bool)
    (hwf : WF t) (_hd : d ≤ 3) :
    minimax t d .negInf .posInf m = exhaustiveMinimax t d m := by
  have h := minimax_clamp (sizeOf t) t le_rfl hwf d .negInf .posInf
    (Score.negInf_le _) m
  rw [h, min_eq_right (Score.le_posInf _), max_eq_right (Score.negInf_le _)]

/-- Difficulty tiers (`Difficulty` of `../types`). -/
inductive Difficulty where
  | beginner : Difficulty
  | intermediate : Difficulty
  | advanced : Difficulty
  | master : Difficulty
deriving DecidableEq, Repr

/-- A difficulty's configuration: search depth and error rate. -/
structure DiffSettings where
  depth : Int
  errorRate : ℚ
deriving DecidableEq, Repr

/-- `difficultySettings` (source lines 9-14). -/
def difficultySettings : Difficulty → DiffSettings
  | .beginner => ⟨2, 8/10⟩
  | .intermediate => ⟨3, 5/10⟩
  | .advanced => ⟨3, 2/10⟩
  | .master => ⟨4, 0⟩

/-- The `for (const move of newGameMoves)` loop of `findBestMoveForAnalysis`
(source lines 226-242): each root move's subtree is searched by `minimax`
at `depth - 1` with the full window and the flag flipped (on an independent
copy of the position, so the root position is untouched); the tracked best
move is replaced only on a strict improvement for the root's side. -/
def rootLoop (depth : Int) (isMax : Bool) :
    List (Move × GTree) → Move → Score → Move
  | [], best, _ => best
  | (mv, sub) :: rest, best, bestValue =>
    let boardValue := minimax sub (depth - 1) .negInf .posInf (!isMax)
    if isMax then
      if bestValue < boardValue then rootLoop depth isMax rest mv boardValue
      else rootLoop depth isMax rest best bestValue
    else
      if boardValue < bestValue then rootLoop depth isMax rest mv boardValue
      else rootLoop depth isMax rest best bestValue

/-- `findBestMoveForAnalysis` (source lines 212-246), with the
promise/`setTimeout` deferral erased: `null` when there are no legal
moves, otherwise the scan of all root moves in generation order starting
from `newGameMoves[0]` with best value `∓∞`. -/
def findBestMoveForAnalysis : GTree → Int → Option Move
  | .node g children, depth =>
    match children with
    | [] => none
    | (mv0, sub0) :: rest =>
      let isMax := g.turn = .w
      some (rootLoop depth isMax ((mv0, sub0) :: rest) mv0
        (if isMax then .negInf else .posInf))

/-- The random-error substitution of `findComputerMove` (source lines
256-267), with the two `Math.random()` draws `r1` (error roll) and `r2`
(index roll) passed explicitly: with more than one legal move and
`r1 < errorRate`, pick the `⌊r2·n⌋`-th move among the legal moves whose
SAN differs from the best move's, falling back to the best move when no
alternative exists. -/
def computerMoveChoice (bestMoveFound : Move) (allMoves : List Move)
    (errorRate r1 r2 : ℚ) : Move :=
  if 1 < allMoves.length ∧ r1 < errorRate then
    let nonBestMoves := allMoves.filter (fun m => m.san ≠ bestMoveFound.san)
    if 0 < nonBestMoves.length then
      nonBestMoves.getD (⌊r2 * nonBestMoves.length⌋).toNat bestMoveFound
    else bestMoveFound
  else bestMoveFound

/-- The legal moves of the root position (`game.moves({verbose: true})`,
source line 256). -/
def rootMoves : GTree → List Move
  | .node _ children => children.map Prod.fst

/-- `findComputerMove` (source lines 248-270): run the root search at the
difficulty's depth, then apply the random-error substitution at the
difficulty's error rate. -/
def findComputerMove (t : GTree) (difficulty : Difficulty) (r1 r2 : ℚ) :
    Option Move :=
  let settings := difficultySettings difficulty
  match findBestMoveForAnalysis t settings.depth with
  | none => none
  | some bestMoveFound =>
      some (computerMoveChoice bestMoveFound (rootMoves t) settings.errorRate r1 r2)

mutual

/-- `quiescence` with the position's mutable state made explicit: the
history stack of moves applied by `game.move` and not yet popped by
`game.undo` is threaded through and returned.  Mirrors source lines
125-158 line by line; `game.move(move)` pushes the move, `game.undo()`
pops the most recently applied move. -/
def quiescenceS : GTree → Score → Score → Bool → List Move → Score × List Move
  | .node g children, alpha, beta, isMaximizingPlayer, hist =>
    let stand_pat := evaluateBoard g
    if isMaximizingPlayer then
      if beta ≤ stand_pat then (beta, hist)
      else
        qLoopS ((captureMoves children).mergeSort qSortLE)
          (if alpha < stand_pat then stand_pat else alpha) beta true hist
    else
      if stand_pat ≤ alpha then (alpha, hist)
      else
        qLoopS ((captureMoves children).mergeSort qSortLE)
          alpha (if stand_pat < beta then stand_pat else beta) false hist
termination_by t _ _ _ _ => sizeOf t
decreasing_by
  all_goals
    have h1 := sizeOf_mergeSort_le qSortLE (fun p => p.1.flags.contains 'c') children
    simp only [captureMoves]
    simp at h1 ⊢
    omega

/-- The capture loop of `quiescence` with the history stack explicit:
each iteration pushes the capture (`game.move`), recurses, then pops it
(`game.undo`) before any cutoff test or return. -/
def qLoopS : List (Move × GTree) → Score → Score → Bool → List Move →
    Score × List Move
  | [], alpha, beta, isMaximizingPlayer, hist =>
    (if isMaximizingPlayer then alpha else beta, hist)
  | (mv, sub) :: rest, alpha, beta, isMaximizingPlayer, hist =>
    let pushed := mv :: hist
    let res := quiescenceS sub alpha beta (!isMaximizingPlayer) pushed
    let popped := res.2.tail
    let score := res.1
    if isMaximizingPlayer then
      if beta ≤ score then (beta, popped)
      else if alpha < score then qLoopS rest score beta true popped
      else qLoopS rest alpha beta true popped
    else
      if score ≤ alpha then (alpha, popped)
      else if score < beta then qLoopS rest alpha score false popped
      else qLoopS rest alpha beta false popped
termination_by l _ _ _ _ => sizeOf l
decreasing_by
  all_goals simp
  all_goals omega

end

mutual

/-- `minimax` with the position's mutable state made explicit, as in
`quiescenceS`: mirrors source lines 161-210, each move pushed before and
popped after its recursive evaluation. -/
def minimaxS : GTree → Int → Score → Score → Bool → List Move →
    Score × List Move
  | .node g children, depth, alpha, beta, isMaximizingPlayer, hist =>
    if depth = 0 ∨ g.isGameOver = true then
      quiescenceS (.node g children) alpha beta isMaximizingPlayer hist
    else
      if isMaximizingPlayer then
        mmLoopMaxS (children.mergeSort mmSortLE) depth .negInf alpha beta hist
      else
        mmLoopMinS (children.mergeSort mmSortLE) depth .posInf alpha beta hist
termination_by t _ _ _ _ _ => sizeOf t
decreasing_by
  all_goals
    have h1 := sizeOf_mergeSort_eq mmSortLE children
    simp
    omega

/-- The maximizing loop of `minimax` with the history stack explicit. -/
def mmLoopMaxS : List (Move × GTree) → Int → Score → Score → Score →
    List Move → Score × List Move
  | [], _, maxEval, _, _, hist => (maxEval, hist)
  | (mv, sub) :: rest, depth, maxEval, alpha, beta, hist =>
    let pushed := mv :: hist
    let res := minimaxS sub (depth - 1) alpha beta false pushed
    let popped := res.2.tail
    let maxEval' := max maxEval res.1
    let alpha' := max alpha res.1
    if beta ≤ alpha' then (maxEval', popped)
    else mmLoopMaxS rest depth maxEval' alpha' beta popped
termination_by l _ _ _ _ _ => sizeOf l
decreasing_by
  all_goals simp
  all_goals omega

/-- The minimizing loop of `minimax` with the history stack explicit. -/
def mmLoopMinS : List (Move × GTree) → Int → Score → Score → Score →
    List Move → Score × List Move
  | [], _, minEval, _, _, hist => (minEval, hist)
  | (mv, sub) :: rest, depth, minEval, alpha, beta, hist =>
    let pushed := mv :: hist
    let res := minimaxS sub (depth - 1) alpha beta true pushed
    let popped := res.2.tail
    let minEval' := min minEval res.1
    let beta' := min beta res.1
    if beta' ≤ alpha then (minEval', popped)
    else mmLoopMinS rest depth minEval' alpha beta' popped
termination_by l _ _ _ _ _ => sizeOf l
decreasing_by
  all_goals simp
  all_goals omega

end

theorem qLoopS_restores :
    ∀ (l : List (Move × GTree)),
    (∀ p ∈ l, ∀ (a b : Score) (m : Bool) (hist : List Move),
      (quiescenceS p.2 a b m hist).2 = hist) →
    ∀ (alpha beta : Score) (m : Bool) (hist : List Move),
      (qLoopS l alpha beta m hist).2 = hist := by
  intro l
  induction l with
  | nil =>
      intro _ alpha beta m hist
      cases m <;> simp [qLoopS]
  | cons p rest ih =>
      intro hyp alpha beta m hist
      obtain ⟨mv, sub⟩ := p
      have ihr := ih (fun p hp => hyp p (List.mem_cons_of_mem _ hp))
      cases m with
      | true =>
          have hres := hyp (mv, sub) (List.mem_cons_self _ _) alpha beta false (mv :: hist)
          simp only [qLoopS, Bool.not_true, hres, List.tail_cons, if_true]
          split_ifs <;> first | rfl | exact ihr _ _ _ _
      | false =>
          have hres := hyp (mv, sub) (List.mem_cons_self _ _) alpha beta true (mv :: hist)
          simp only [qLoopS, Bool.not_false, hres, List.tail_cons,
            Bool.false_eq_true, if_false]
          split_ifs <;> first | rfl | exact ihr _ _ _ _

theorem quiescenceS_restores :
    ∀ (n : Nat) (t : GTree), sizeOf t ≤ n →
    ∀ (a b : Score) (m : Bool) (hist : List Move),
      (quiescenceS t a b m hist).2 = hist := by
  intro n
  induction n with
  | zero =>
      intro t ht
      obtain ⟨g, children⟩ := t
      exfalso
      simp at ht
  | succ n ih =>
      intro t ht a b m hist
      obtain ⟨g, children⟩ := t
      have hsub : ∀ p ∈ (captureMoves children).mergeSort qSortLE,
          ∀ (x y : Score) (mm : Bool) (h : List Move),
          (quiescenceS p.2 x y mm h).2 = h := by
        intro p hp x y mm h
        have hmem : p ∈ children :=
          List.mem_of_mem_filter (List.mem_mergeSort.mp hp)
        have hlt := sizeOf_sub_lt_node hmem g
        exact ih p.2 (by omega) x y mm h
      cases m with
      | true =>
          simp only [quiescenceS, if_true]
          split_ifs <;> first | rfl | exact qLoopS_restores _ hsub _ _ _ _
      | false =>
          simp only [quiescenceS, Bool.false_eq_true, if_false]
          split_ifs <;> first | rfl | exact qLoopS_restores _ hsub _ _ _ _

theorem mmLoopMaxS_restores :
    ∀ (l : List (Move × GTree)) (d : Int),
    (∀ p ∈ l, ∀ (dd : Int) (a b : Score) (m : Bool) (hist : List Move),
      (minimaxS p.2 dd a b m hist).2 = hist) →
    ∀ (me alpha beta : Score) (hist : List Move),
      (mmLoopMaxS l d me alpha beta hist).2 = hist := by
  intro l d
  induction l with
  | nil =>
      intro _ me alpha beta hist
      simp [mmLoopMaxS]
  | cons p rest ih =>
      intro hyp me alpha beta hist
      obtain ⟨mv, sub⟩ := p
      have ihr := ih (fun p hp => hyp p (List.mem_cons_of_mem _ hp))
      have hres := hyp (mv, sub) (List.mem_cons_self _ _) (d - 1) alpha beta false
        (mv :: hist)
      simp only [mmLoopMaxS, hres, List.tail_cons]
      split_ifs <;> first | rfl | exact ihr _ _ _ _

theorem mmLoopMinS_restores :
    ∀ (l : List (Move × GTree)) (d : Int),
    (∀ p ∈ l, ∀ (dd : Int) (a b : Score) (m : Bool) (hist : List Move),
      (minimaxS p.2 dd a b m hist).2 = hist) →
    ∀ (me alpha beta : Score) (hist : List Move),
      (mmLoopMinS l d me alpha beta hist).2 = hist := by
  intro l d
  induction l with
  | nil =>
      intro _ me alpha beta hist
      simp [mmLoopMinS]
  | cons p rest ih =>
      intro hyp me alpha beta hist
      obtain ⟨mv, sub⟩ := p
      have ihr := ih (fun p hp => hyp p (List.mem_cons_of_mem _ hp))
      have hres := hyp (mv, sub) (List.mem_cons_self _ _) (d - 1) alpha beta true
        (mv :: hist)
      simp only [mmLoopMinS, hres, List.tail_cons]
      split_ifs <;> first | rfl | exact ihr _ _ _ _

theorem minimaxS_restores :
    ∀ (n : Nat) (t : GTree), sizeOf t ≤ n →
    ∀ (d : Int) (a b : Score) (m : Bool) (hist : List Move),
      (minimaxS t d a b m hist).2 = hist := by
  intro n
  induction n with
  | zero =>
      intro t ht
      obtain ⟨g, children⟩ := t
      exfalso
      simp at ht
  | succ n ih =>
      intro t ht d a b m hist
      obtain ⟨g, children⟩ := t
      have hsub : ∀ p ∈ children.mergeSort mmSortLE,
          ∀ (dd : Int) (x y : Score) (mm : Bool) (h : List Move),
          (minimaxS p.2 dd x y mm h).2 = h := by
        intro p hp dd x y mm h
        have hmem : p ∈ children := List.mem_mergeSort.mp hp
        have hlt := sizeOf_sub_lt_node hmem g
        exact ih p.2 (by omega) dd x y mm h
      simp only [minimaxS]
      split_ifs
      · exact quiescenceS_restores (sizeOf (GTree.node g children)) _ le_rfl _ _ _ _
      · exact mmLoopMaxS_restores _ d hsub _ _ _ _
      · exact mmLoopMinS_restores _ d hsub _ _ _ _

/-- C3: the search never leaks a position mutation — with the rules
engine's make/undo history made explicit, every move `game.move` applies
during `quiescence` or `minimax` is popped by the matching `game.undo`
before the call returns, so the history stack (hence the position: same
legal-move set, same side to move, same evaluation) after either call is
exactly the history stack before it. -/
theorem search_restores_position (t : GTree) (d : Int) (a b : Score)
    (m : Bool) (hist : List Move) :
    (quiescenceS t a b m hist).2 = hist ∧ (minimaxS t d a b m hist).2 = hist :=
  ⟨quiescenceS_restores (sizeOf t) t le_rfl a b m hist,
   minimaxS_restores (sizeOf t) t le_rfl d a b m hist⟩

/-- JS number values reachable in `getEvaluation`: after `rawEval / 100`
the value is a rational or `±Infinity`. -/
inductive JSNum where
  | negInf : JSNum
  | fin : ℚ → JSNum
  | posInf : JSNum
deriving DecidableEq, Repr

/-- The engine's integer score viewed as a JS number. -/
def Score.toJSNum : Score → JSNum
  | .negInf => .negInf
  | .fin v => .fin v
  | .posInf => .posInf

/-- JS division by 100 (`Infinity / 100 === Infinity`). -/
def JSNum.div100 : JSNum → JSNum
  | .negInf => .negInf
  | .fin q => .fin (q / 100)
  | .posInf => .posInf

/-- `Math.min` on the values reachable here. -/
def JSNum.jmin : JSNum → JSNum → JSNum
  | .negInf, _ => .negInf
  | _, .negInf => .negInf
  | .posInf, y => y
  | x, .posInf => x
  | .fin a, .fin b => .fin (min a b)

/-- `Math.max` on the values reachable here. -/
def JSNum.jmax : JSNum → JSNum → JSNum
  | .posInf, _ => .posInf
  | _, .posInf => .posInf
  | .negInf, y => y
  | x, .negInf => x
  | .fin a, .fin b => .fin (max a b)

/-- `getEvaluation` (source lines 272-277):
`Math.max(-10, Math.min(10, evaluateBoard(game) / 100))`. -/
def getEvaluation (g : Game) : JSNum :=
  JSNum.jmax (.fin (-10)) (JSNum.jmin (.fin 10) ((evaluateBoard g).toJSNum.div100))

/-- C5: `getEvaluation` is the clamp of `evaluateBoard / 100` to
`[-10, 10]`: it always returns a finite value in that interval, and on
checkmate positions the `±Infinity` sentinels collapse exactly to `∓10`
(`-10` with White to move, `+10` with Black to move). -/
theorem getEvaluation_clamped (g : Game) :
    (∃ q : ℚ, getEvaluation g = .fin q ∧ -10 ≤ q ∧ q ≤ 10) ∧
      (g.isCheckmate = true →
        getEvaluation g = .fin (if g.turn = .w then -10 else 10)) := by
  constructor
  · rcases hv : evaluateBoard g with _ | v | _
    · exact ⟨-10, by simp [getEvaluation, hv, Score.toJSNum, JSNum.div100,
        JSNum.jmin, JSNum.jmax], by norm_num, by norm_num⟩
    · refine ⟨max (-10) (min 10 (v / 100)), ?_, le_max_left _ _, ?_⟩
      · simp [getEvaluation, hv, Score.toJSNum, JSNum.div100, JSNum.jmin,
          JSNum.jmax]
      · exact max_le (by norm_num) (min_le_left _ _)
    · exact ⟨10, by simp [getEvaluation, hv, Score.toJSNum, JSNum.div100,
        JSNum.jmin, JSNum.jmax], by norm_num, by norm_num⟩
  · intro hc
    cases ht : g.turn with
    | w =>
        have hv : evaluateBoard g = .negInf := by
          simp [evaluateBoard, hc, ht]
        simp [getEvaluation, hv, Score.toJSNum, JSNum.div100, JSNum.jmin,
          JSNum.jmax, ht]
    | b =>
        have hv : evaluateBoard g = .posInf := by
          simp [evaluateBoard, hc, ht]
        simp [getEvaluation, hv, Score.toJSNum, JSNum.div100, JSNum.jmin,
          JSNum.jmax, ht]

/-- King versus king after the last capture: White Ke1, Black Ke8, White
to move, drawn by insufficient material. -/
def kkDrawG : Game where
  board := fun r c =>
    if r = (7 : Fin 8) ∧ c = (4 : Fin 8) then some ⟨.w, .k⟩
    else if r = (0 : Fin 8) ∧ c = (4 : Fin 8) then some ⟨.b, .k⟩
    else none
  turn := .w
  isCheckmate := false
  isDraw := true

/-- The bare-kings draw as a search-tree leaf (no legal moves listed;
the game is over). -/
def kkLeaf : GTree := .node kkDrawG []

/-- Back-rank mate just delivered: White Re8/Kg1, Black Kg8 with pawns
f7/g7/h7, Black to move and checkmated. -/
def backRankMateG : Game where
  board := fun r c =>
    if r = (0 : Fin 8) ∧ c = (4 : Fin 8) then some ⟨.w, .r⟩
    else if r = (0 : Fin 8) ∧ c = (6 : Fin 8) then some ⟨.b, .k⟩
    else if r = (1 : Fin 8) ∧ (c = (5 : Fin 8) ∨ c = (6 : Fin 8) ∨ c = (7 : Fin 8))
      then some ⟨.b, .p⟩
    else if r = (7 : Fin 8) ∧ c = (6 : Fin 8) then some ⟨.w, .k⟩
    else none
  turn := .b
  isCheckmate := true
  isDraw := false

theorem getEvaluation_clamped_witness :
    (∃ q : ℚ, getEvaluation backRankMateG = .fin q ∧ -10 ≤ q ∧ q ≤ 10) ∧
      getEvaluation backRankMateG = .fin 10 := by
  refine ⟨(getEvaluation_clamped backRankMateG).1, ?_⟩
  have h2 := (getEvaluation_clamped backRankMateG).2 rfl
  simpa using h2

/-- C9: whenever `alpha ≤ beta`, the value `quiescence` returns lies in
the closed window `[alpha, beta]`; it is exactly the window-free
quiescence value clamped to the window, so a fail-high returns exactly
`beta` and a fail-low exactly `alpha`. -/
theorem quiescence_within_window (t : GTree) (a b : Score) (m : Bool)
    (hab : a ≤ b) :
    a ≤ quiescence t a b m ∧ quiescence t a b m ≤ b ∧
      quiescence t a b m = max a (min b (qspec t m)) := by
  have h := quiescence_clamp (sizeOf t) t le_rfl a b hab m
  refine ⟨?_, ?_, h⟩
  · rw [h]
    exact le_max_left _ _
  · rw [h]
    exact max_le hab (min_le_left _ _)

theorem quiescence_within_window_witness :
    Score.fin (-5) ≤ quiescence kkLeaf (.fin (-5)) (.fin 7) true ∧
      quiescence kkLeaf (.fin (-5)) (.fin 7) true ≤ .fin 7 ∧
      quiescence kkLeaf (.fin (-5)) (.fin 7) true =
        max (.fin (-5)) (min (.fin 7) (qspec kkLeaf true)) :=
  quiescence_within_window kkLeaf (.fin (-5)) (.fin 7) true (by decide)

/-- C10: quiescence's capture filter keeps exactly the moves whose flags
contain `'c'`; an en-passant capture (flag `'e'`, and chess.js does not
also set `'c'` on it) is therefore never searched by quiescence, and the
move-ordering heuristic of `minimax` scores it `0` instead of the capture
score. -/
theorem enPassant_excluded (m : Move) (t : GTree) (l : List (Move × GTree))
    (_hep : 'e' ∈ m.flags) (hnc : 'c' ∉ m.flags) :
    (m, t) ∉ captureMoves l ∧
      (∀ p ∈ captureMoves l, 'c' ∈ p.1.flags) ∧
      (m.promotion = none → moveOrderScore m = 0) := by
  refine ⟨?_, ?_, ?_⟩
  · intro hmem
    have h2 := List.of_mem_filter hmem
    simp at h2
    exact hnc h2
  · intro p hp
    have h2 := List.of_mem_filter hp
    simpa using h2
  · intro hpr
    have hc : m.flags.contains 'c' = false := by
      simpa using hnc
    simp [moveOrderScore, hpr, hc]
    exact fun h => absurd h hnc

/-- A (white) en-passant capture as chess.js produces it: flags `"e"`,
pawn takes pawn. -/
def epMove : Move := ⟨['e'], .p, some .p, none, "exd6"⟩

theorem enPassant_excluded_witness :
    (epMove, kkLeaf) ∉ captureMoves [(epMove, kkLeaf)] ∧
      moveOrderScore epMove = 0 :=
  ⟨(enPassant_excluded epMove kkLeaf [(epMove, kkLeaf)] (by decide) (by decide)).1,
   (enPassant_excluded epMove kkLeaf [(epMove, kkLeaf)] (by decide) (by decide)).2.2 rfl⟩

/-- Rook-down White shuffling under the fifty-move rule: White Ka1 in
check from Ra2 (protected by the pawn b3), Black Ra2/Pb3/Kf5.  White's
only legal move is Kb1. -/
def fiftyRootG : Game where
  board := fun r c =>
    if r = (7 : Fin 8) ∧ c = (0 : Fin 8) then some ⟨.w, .k⟩
    else if r = (6 : Fin 8) ∧ c = (0 : Fin 8) then some ⟨.b, .r⟩
    else if r = (5 : Fin 8) ∧ c = (1 : Fin 8) then some ⟨.b, .p⟩
    else if r = (3 : Fin 8) ∧ c = (5 : Fin 8) then some ⟨.b, .k⟩
    else none
  turn := .w
  isCheckmate := false
  isDraw := false

/-- The position after the forced Kb1: the quiet move was the hundredth
half-move, so the rules engine now reports a fifty-move-rule draw. -/
def fiftyChildG : Game where
  board := fun r c =>
    if r = (7 : Fin 8) ∧ c = (1 : Fin 8) then some ⟨.w, .k⟩
    else if r = (6 : Fin 8) ∧ c = (0 : Fin 8) then some ⟨.b, .r⟩
    else if r = (5 : Fin 8) ∧ c = (1 : Fin 8) then some ⟨.b, .p⟩
    else if r = (3 : Fin 8) ∧ c = (5 : Fin 8) then some ⟨.b, .k⟩
    else none
  turn := .b
  isCheckmate := false
  isDraw := true

/-- White's forced king move in `fiftyRootG`. -/
def kb1Move : Move := ⟨['n'], .k, none, none, "Kb1"⟩

/-- The game tree of `fiftyRootG`: one legal move, into a drawn leaf. -/
def fiftyTree : GTree := .node fiftyRootG [(kb1Move, .node fiftyChildG [])]

set_option maxRecDepth 8000 in
unseal List.merge List.mergeSort quiescence qLoop minimax mmLoopMax mmLoopMin in
/-- C8 counterexample: the code performs no depth validation.  `minimax`
accepts depth `-1` and, since `-1 === 0` is false, recurses past the
depth base case instead of evaluating the leaf: on `fiftyTree` it returns
the deep value `0` (the forced draw) while treating the depth as a leaf
would return the stand-pat-based quiescence value.  `findBestMoveForAnalysis`
accepts caller depth `0` and drives exactly that negative-depth search. -/
theorem minimax_no_depth_validation :
    minimax fiftyTree (-1) .negInf .posInf true ≠
        quiescence fiftyTree .negInf .posInf true ∧
      minimax fiftyTree (-1) .negInf .posInf true = .fin 0 ∧
      findBestMoveForAnalysis fiftyTree 0 = some kb1Move := by
  refine ⟨by decide, by decide, by decide⟩

/-- C8 amended: `minimax` treats exactly depth `0` (or a game-over
position) as "evaluate the leaf only", delegating to `quiescence` with
the same window; for non-negative depths every recursion path reaches
this base case, but nothing rejects a negative depth. -/
theorem minimax_depth_zero_leaf (t : GTree) (a b : Score) (m : Bool) :
    minimax t 0 a b m = quiescence t a b m := by
  obtain ⟨g, children⟩ := t
  simp only [minimax]
  simp

theorem minimax_fullWindow_eq_exhaustive_witness :
    minimax fiftyTree 2 .negInf .posInf true = exhaustiveMinimax fiftyTree 2 true := by
  refine minimax_fullWindow_eq_exhaustive fiftyTree 2 true ?_ (by decide)
  refine WF.node _ _ (fun _ => by simp) ?_
  intro p hp
  simp only [List.mem_singleton] at hp
  subst hp
  refine WF.node _ _ (fun hgo => ?_) ?_
  · exact absurd hgo (by decide)
  · intro p hp
    simp at hp

/-- The score assigned to a root move by the driver: `minimax` on its
subtree at `depth - 1`, full window, flag flipped (source line 229). -/
def rootValue (depth : Int) (isMax : Bool) (p : Move × GTree) : Score :=
  minimax p.2 (depth - 1) .negInf .posInf (!isMax)

/-- Maximum root-move score of a move list, base `-∞` (White to move). -/
def foldMaxVals (depth : Int) : List (Move × GTree) → Score
  | [] => .negInf
  | p :: rest => max (rootValue depth true p) (foldMaxVals depth rest)

/-- Minimum root-move score of a move list, base `+∞` (Black to move). -/
def foldMinVals (depth : Int) : List (Move × GTree) → Score
  | [] => .posInf
  | p :: rest => min (rootValue depth false p) (foldMinVals depth rest)

theorem rootLoopMax_stay (depth : Int) :
    ∀ (l : List (Move × GTree)) (best : Move) (bv : Score),
      foldMaxVals depth l ≤ bv → rootLoop depth true l best bv = best := by
  intro l
  induction l with
  | nil => intro best bv _; rfl
  | cons p rest ih =>
      intro best bv hle
      obtain ⟨mv, sub⟩ := p
      simp only [foldMaxVals, max_le_iff] at hle
      have hval : minimax sub (depth - 1) .negInf .posInf (!true) =
          rootValue depth true (mv, sub) := rfl
      simp only [rootLoop, hval, if_true]
      rw [if_neg (not_lt.mpr hle.1)]
      exact ih best bv hle.2

theorem rootLoopMax_argmax (depth : Int) :
    ∀ (l : List (Move × GTree)) (best : Move) (bv : Score),
      bv < foldMaxVals depth l →
      ∃ (i : Nat) (h : i < l.length),
        rootLoop depth true l best bv = (l.get ⟨i, h⟩).1 ∧
        rootValue depth true (l.get ⟨i, h⟩) = foldMaxVals depth l ∧
        ∀ p ∈ l.take i, rootValue depth true p < foldMaxVals depth l := by
  intro l
  induction l with
  | nil =>
      intro best bv hlt
      exact absurd hlt (not_lt.mpr (Score.negInf_le bv))
  | cons p rest ih =>
      intro best bv hlt
      obtain ⟨mv, sub⟩ := p
      have hval : minimax sub (depth - 1) .negInf .posInf (!true) =
          rootValue depth true (mv, sub) := rfl
      simp only [rootLoop, hval, if_true]
      by_cases hv : bv < rootValue depth true (mv, sub)
      · rw [if_pos hv]
        by_cases hR : foldMaxVals depth rest ≤ rootValue depth true (mv, sub)
        · have hM : foldMaxVals depth ((mv, sub) :: rest) =
              rootValue depth true (mv, sub) := by
            simp only [foldMaxVals]
            exact max_eq_left hR
          refine ⟨0, by simp, ?_, ?_, ?_⟩
          · simpa using rootLoopMax_stay depth rest mv _ hR
          · simpa using hM.symm
          · intro p hp
            simp at hp
        · have hRgt : rootValue depth true (mv, sub) < foldMaxVals depth rest :=
            not_le.mp hR
          have hM : foldMaxVals depth ((mv, sub) :: rest) = foldMaxVals depth rest := by
            simp only [foldMaxVals]
            exact max_eq_right (le_of_lt hRgt)
          obtain ⟨j, hj, h1, h2, h3⟩ := ih mv (rootValue depth true (mv, sub)) hRgt
          refine ⟨j + 1, by simpa using hj, ?_, ?_, ?_⟩
          · simpa using h1
          · rw [hM]
            simpa using h2
          · intro p hp
            rw [hM]
            rcases List.mem_cons.mp (by simpa using hp) with hph | hpt
            · rw [hph]
              exact hRgt
            · exact h3 p hpt
      · rw [if_neg hv]
        have hvle : rootValue depth true (mv, sub) ≤ bv := not_lt.mp hv
        have hM : foldMaxVals depth ((mv, sub) :: rest) = foldMaxVals depth rest := by
          have hMc : foldMaxVals depth ((mv, sub) :: rest) =
              max (rootValue depth true (mv, sub)) (foldMaxVals depth rest) := rfl
          rcases max_cases (rootValue depth true (mv, sub)) (foldMaxVals depth rest) with
            ⟨hm, _⟩ | ⟨hm, _⟩
          · rw [hMc, hm] at hlt
            exact absurd (lt_of_lt_of_le hlt hvle) (lt_irrefl bv)
          · rw [hMc, hm]
        have hlt' : bv < foldMaxVals depth rest := by
          rw [← hM]
          exact hlt
        obtain ⟨j, hj, h1, h2, h3⟩ := ih best bv hlt'
        refine ⟨j + 1, by simpa using hj, ?_, ?_, ?_⟩
        · simpa using h1
        · rw [hM]
          simpa using h2
        · intro p hp
          rw [hM]
          rcases List.mem_cons.mp (by simpa using hp) with hph | hpt
          · rw [hph, ← hM]
            exact lt_of_le_of_lt hvle hlt
          · exact h3 p hpt

theorem rootLoopMin_stay (depth : Int) :
    ∀ (l : List (Move × GTree)) (best : Move) (bv : Score),
      bv ≤ foldMinVals depth l → rootLoop depth false l best bv = best := by
  intro l
  induction l with
  | nil => intro best bv _; rfl
  | cons p rest ih =>
      intro best bv hle
      obtain ⟨mv, sub⟩ := p
      simp only [foldMinVals, le_min_iff] at hle
      have hval : minimax sub (depth - 1) .negInf .posInf (!false) =
          rootValue depth false (mv, sub) := rfl
      simp only [rootLoop, hval, Bool.false_eq_true, if_false]
      rw [if_neg (not_lt.mpr hle.1)]
      exact ih best bv hle.2

theorem rootLoopMin_argmin (depth : Int) :
    ∀ (l : List (Move × GTree)) (best : Move) (bv : Score),
      foldMinVals depth l < bv →
      ∃ (i : Nat) (h : i < l.length),
        rootLoop depth false l best bv = (l.get ⟨i, h⟩).1 ∧
        rootValue depth false (l.get ⟨i, h⟩) = foldMinVals depth l ∧
        ∀ p ∈ l.take i, foldMinVals depth l < rootValue depth false p := by
  intro l
  induction l with
  | nil =>
      intro best bv hlt
      exact absurd hlt (not_lt.mpr (Score.le_posInf bv))
  | cons p rest ih =>
      intro best bv hlt
      obtain ⟨mv, sub⟩ := p
      have hval : minimax sub (depth - 1) .negInf .posInf (!false) =
          rootValue depth false (mv, sub) := rfl
      simp only [rootLoop, hval, Bool.false_eq_true, if_false]
      by_cases hv : rootValue depth false (mv, sub) < bv
      · rw [if_pos hv]
        by_cases hR : rootValue depth false (mv, sub) ≤ foldMinVals depth rest
        · have hM : foldMinVals depth ((mv, sub) :: rest) =
              rootValue depth false (mv, sub) := by
            simp only [foldMinVals]
            exact min_eq_left hR
          refine ⟨0, by simp, ?_, ?_, ?_⟩
          · simpa using rootLoopMin_stay depth rest mv _ hR
          · simpa using hM.symm
          · intro p hp
            simp at hp
        · have hRlt : foldMinVals depth rest < rootValue depth false (mv, sub) :=
            not_le.mp hR
          have hM : foldMinVals depth ((mv, sub) :: rest) = foldMinVals depth rest := by
            simp only [foldMinVals]
            exact min_eq_right (le_of_lt hRlt)
          obtain ⟨j, hj, h1, h2, h3⟩ := ih mv (rootValue depth false (mv, sub)) hRlt
          refine ⟨j + 1, by simpa using hj, ?_, ?_, ?_⟩
          · simpa using h1
          · rw [hM]
            simpa using h2
          · intro p hp
            rw [hM]
            rcases List.mem_cons.mp (by simpa using hp) with hph | hpt
            · rw [hph]
              exact hRlt
            · exact h3 p hpt
      · rw [if_neg hv]
        have hvge : bv ≤ rootValue depth false (mv, sub) := not_lt.mp hv
        have hM : foldMinVals depth ((mv, sub) :: rest) = foldMinVals depth rest := by
          have hMc : foldMinVals depth ((mv, sub) :: rest) =
              min (rootValue depth false (mv, sub)) (foldMinVals depth rest) := rfl
          rcases min_cases (rootValue depth false (mv, sub)) (foldMinVals depth rest) with
            ⟨hm, _⟩ | ⟨hm, _⟩
          · rw [hMc, hm] at hlt
            exact absurd (lt_of_le_of_lt hvge hlt) (lt_irrefl bv)
          · rw [hMc, hm]
        have hlt' : foldMinVals depth rest < bv := by
          rw [← hM]
          exact hlt
        obtain ⟨j, hj, h1, h2, h3⟩ := ih best bv hlt'
        refine ⟨j + 1, by simpa using hj, ?_, ?_, ?_⟩
        · simpa using h1
        · rw [hM]
          simpa using h2
        · intro p hp
          rw [hM]
          rcases List.mem_cons.mp (by simpa using hp) with hph | hpt
          · rw [hph, ← hM]
            exact lt_of_lt_of_le hlt hvge
          · exact h3 p hpt

theorem findBestMove_cons (g : Game) (mv0 : Move) (sub0 : GTree)
    (rest : List (Move × GTree)) (depth : Int) :
    findBestMoveForAnalysis (.node g ((mv0, sub0) :: rest)) depth =
      some (rootLoop depth (decide (g.turn = .w)) ((mv0, sub0) :: rest) mv0
        (if g.turn = .w then .negInf else .posInf)) := by
  simp only [findBestMoveForAnalysis]

/-- C6: on any position with at least one legal move, the root driver
returns the first move (in generation order) attaining the extremal root
value: the tracked best is replaced only on a strict improvement for the
side to move (greater for White, less for Black), so every earlier move
has a strictly worse value and ties keep the first-found move. -/
theorem findBestMove_first_argmax (g : Game) (children : List (Move × GTree))
    (depth : Int) (hne : children ≠ []) :
    ∃ (i : Nat) (h : i < children.length),
      findBestMoveForAnalysis (.node g children) depth =
        some ((children.get ⟨i, h⟩).1) ∧
      (g.turn = .w →
        rootValue depth true (children.get ⟨i, h⟩) = foldMaxVals depth children ∧
        ∀ p ∈ children.take i, rootValue depth true p < foldMaxVals depth children) ∧
      (g.turn = .b →
        rootValue depth false (children.get ⟨i, h⟩) = foldMinVals depth children ∧
        ∀ p ∈ children.take i, foldMinVals depth children < rootValue depth false p) := by
  cases children with
  | nil => exact absurd rfl hne
  | cons c rest =>
      obtain ⟨mv0, sub0⟩ := c
      rw [findBestMove_cons]
      cases ht : g.turn with
      | w =>
          simp only [eq_self_iff_true, decide_True, if_true]
          by_cases hM : Score.negInf < foldMaxVals depth ((mv0, sub0) :: rest)
          · obtain ⟨i, h, h1, h2, h3⟩ := rootLoopMax_argmax depth _ mv0 _ hM
            exact ⟨i, h, by rw [h1], fun _ => ⟨h2, h3⟩,
              fun hb => absurd hb (by decide)⟩
          · have hMeq : foldMaxVals depth ((mv0, sub0) :: rest) = .negInf :=
              le_antisymm (not_lt.mp hM) (Score.negInf_le _)
            refine ⟨0, by simp, ?_, fun _ => ⟨?_, ?_⟩, fun hb => absurd hb (by decide)⟩
            · rw [rootLoopMax_stay depth _ mv0 _ (le_of_eq hMeq)]
              rfl
            · have hle : rootValue depth true (mv0, sub0) ≤
                  foldMaxVals depth ((mv0, sub0) :: rest) := by
                have : foldMaxVals depth ((mv0, sub0) :: rest) =
                    max (rootValue depth true (mv0, sub0)) (foldMaxVals depth rest) := rfl
                rw [this]
                exact le_max_left _ _
              simpa using le_antisymm (hle.trans (le_of_eq hMeq)) (Score.negInf_le _) |>.trans
                hMeq.symm
            · intro p hp
              simp at hp
      | b =>
          have hd : decide (Color.b = Color.w) = false := by decide
          rw [hd, if_neg (by decide : ¬ Color.b = Color.w)]
          by_cases hM : foldMinVals depth ((mv0, sub0) :: rest) < Score.posInf
          · obtain ⟨i, h, h1, h2, h3⟩ := rootLoopMin_argmin depth _ mv0 _ hM
            exact ⟨i, h, by rw [h1], fun hw => absurd hw (by decide),
              fun _ => ⟨h2, h3⟩⟩
          · have hMeq : foldMinVals depth ((mv0, sub0) :: rest) = .posInf :=
              le_antisymm (Score.le_posInf _) (not_lt.mp hM)
            refine ⟨0, by simp, ?_, fun hw => absurd hw (by decide), fun _ => ⟨?_, ?_⟩⟩
            · rw [rootLoopMin_stay depth _ mv0 _ (ge_of_eq hMeq)]
              rfl
            · have hle : foldMinVals depth ((mv0, sub0) :: rest) ≤
                  rootValue depth false (mv0, sub0) := by
                have : foldMinVals depth ((mv0, sub0) :: rest) =
                    min (rootValue depth false (mv0, sub0)) (foldMinVals depth rest) := rfl
                rw [this]
                exact min_le_left _ _
              simpa using le_antisymm (Score.le_posInf _) (hMeq ▸ hle) |>.trans hMeq.symm
            · intro p hp
              simp at hp

theorem getD_mem {α : Type} {l : List α} {n : Nat} (d : α) (h : n < l.length) :
    l.getD n d ∈ l := by
  rw [List.getD_eq_getElem?_getD, List.getElem?_eq_getElem h]
  exact List.getElem_mem h

/-- C7: the difficulty error policy, with the two `Math.random()` draws
`r1, r2 ∈ [0, 1)` explicit.  At error rate `1` (and at least two legal
moves with an alternative SAN, which chess.js's unique SANs guarantee),
the returned move is a legal move and never the best move; at error rate
`0` the best move is returned for every value of the random draws — in
particular `findComputerMove` at `master` (error rate `0`) is exactly the
root search at the master depth. -/
theorem computerMove_error_policy (best : Move) (allMoves : List Move)
    (t : GTree) (r1 r2 : ℚ)
    (hr1 : 0 ≤ r1) (_hr2 : r1 < 1) (_hr3 : 0 ≤ r2) (hr4 : r2 < 1) :
    (2 ≤ allMoves.length → (∃ m ∈ allMoves, m.san ≠ best.san) →
      computerMoveChoice best allMoves 1 r1 r2 ∈ allMoves ∧
        computerMoveChoice best allMoves 1 r1 r2 ≠ best) ∧
      computerMoveChoice best allMoves 0 r1 r2 = best ∧
      findComputerMove t .master r1 r2 =
        findBestMoveForAnalysis t (difficultySettings .master).depth := by
  have herr0 : ∀ (b : Move) (l : List Move), computerMoveChoice b l 0 r1 r2 = b := by
    intro b l
    unfold computerMoveChoice
    rw [if_neg]
    rintro ⟨-, hlt⟩
    exact absurd (lt_of_le_of_lt hr1 hlt) (lt_irrefl 0)
  refine ⟨?_, herr0 best allMoves, ?_⟩
  · intro hlen ⟨alt, haltmem, haltsan⟩
    have hguard : 1 < allMoves.length ∧ r1 < 1 := ⟨by omega, _hr2⟩
    have hnbne : alt ∈ allMoves.filter (fun m => m.san ≠ best.san) := by
      rw [List.mem_filter]
      exact ⟨haltmem, by simpa using haltsan⟩
    have hpos : 0 < (allMoves.filter (fun m => m.san ≠ best.san)).length :=
      List.length_pos.mpr (List.ne_nil_of_mem hnbne)
    have hidx : (⌊r2 * (allMoves.filter (fun m => m.san ≠ best.san)).length⌋).toNat <
        (allMoves.filter (fun m => m.san ≠ best.san)).length := by
      set n := (allMoves.filter (fun m => m.san ≠ best.san)).length with hn
      have hfl : ⌊r2 * (n : ℚ)⌋ < (n : Int) := by
        have : r2 * (n : ℚ) < (n : ℚ) := by
          have hnq : (0 : ℚ) < (n : ℚ) := by exact_mod_cast hpos
          calc r2 * (n : ℚ) < 1 * (n : ℚ) := by
                exact mul_lt_mul_of_pos_right hr4 hnq
            _ = (n : ℚ) := one_mul _
        exact_mod_cast Int.floor_lt.mpr (by exact_mod_cast this)
      omega
    have hsel : computerMoveChoice best allMoves 1 r1 r2 =
        (allMoves.filter (fun m => m.san ≠ best.san)).getD
          (⌊r2 * (allMoves.filter (fun m => m.san ≠ best.san)).length⌋).toNat best := by
      unfold computerMoveChoice
      rw [if_pos hguard, if_pos hpos]
    have hmem2 : computerMoveChoice best allMoves 1 r1 r2 ∈
        allMoves.filter (fun m => m.san ≠ best.san) := by
      rw [hsel]
      exact getD_mem best hidx
    constructor
    · exact List.mem_of_mem_filter hmem2
    · have hsan := List.of_mem_filter hmem2
      simp at hsan
      intro heq
      exact hsan (congrArg Move.san heq)
  · unfold findComputerMove
    cases hb : findBestMoveForAnalysis t (difficultySettings .master).depth with
    | none => simp [hb]
    | some b =>
        simp only [hb]
        rw [show (difficultySettings Difficulty.master).errorRate = 0 from rfl,
          herr0 b (rootMoves t)]

theorem findBestMove_first_argmax_witness :
    ∃ (i : Nat)
      (h : i < ([(kb1Move, GTree.node fiftyChildG [])] : List (Move × GTree)).length),
      findBestMoveForAnalysis (.node fiftyRootG [(kb1Move, .node fiftyChildG [])]) 1 =
        some (([(kb1Move, GTree.node fiftyChildG [])] :
          List (Move × GTree)).get ⟨i, h⟩).1 ∧
      (fiftyRootG.turn = .w →
        rootValue 1 true (([(kb1Move, GTree.node fiftyChildG [])] :
            List (Move × GTree)).get ⟨i, h⟩) =
          foldMaxVals 1 [(kb1Move, .node fiftyChildG [])] ∧
        ∀ p ∈ ([(kb1Move, GTree.node fiftyChildG [])] :
            List (Move × GTree)).take i,
          rootValue 1 true p < foldMaxVals 1 [(kb1Move, .node fiftyChildG [])]) ∧
      (fiftyRootG.turn = .b →
        rootValue 1 false (([(kb1Move, GTree.node fiftyChildG [])] :
            List (Move × GTree)).get ⟨i, h⟩) =
          foldMinVals 1 [(kb1Move, .node fiftyChildG [])] ∧
        ∀ p ∈ ([(kb1Move, GTree.node fiftyChildG [])] :
            List (Move × GTree)).take i,
          foldMinVals 1 [(kb1Move, .node fiftyChildG [])] < rootValue 1 false p) :=
  findBestMove_first_argmax fiftyRootG [(kb1Move, .node fiftyChildG [])] 1
    (List.cons_ne_nil _ _)

theorem computerMove_error_policy_witness :
    (computerMoveChoice kb1Move [kb1Move, epMove] 1 (1/2) (1/2) ∈
        ([kb1Move, epMove] : List Move) ∧
      computerMoveChoice kb1Move [kb1Move, epMove] 1 (1/2) (1/2) ≠ kb1Move) ∧
      computerMoveChoice kb1Move [kb1Move, epMove] 0 (1/2) (1/2) = kb1Move ∧
      findComputerMove kkLeaf .master (1/2) (1/2) =
        findBestMoveForAnalysis kkLeaf (difficultySettings .master).depth := by
  have h := computerMove_error_policy kb1Move [kb1Move, epMove] kkLeaf (1/2) (1/2)
    (by norm_num) (by norm_num) (by norm_num) (by norm_num)
  exact ⟨h.1 (by decide) ⟨epMove, by decide, by decide⟩, h.2.1, h.2.2⟩

theorem qLoopS_fst :
    ∀ (l : List (Move × GTree)),
    (∀ p ∈ l, ∀ (a b : Score) (m : Bool) (hist : List Move),
      (quiescenceS p.2 a b m hist).1 = quiescence p.2 a b m) →
    ∀ (alpha beta : Score) (m : Bool) (hist : List Move),
      (qLoopS l alpha beta m hist).1 = qLoop l alpha beta m := by
  intro l
  induction l with
  | nil =>
      intro _ alpha beta m hist
      cases m <;> simp [qLoopS, qLoop]
  | cons p rest ih =>
      intro hyp alpha beta m hist
      obtain ⟨mv, sub⟩ := p
      have ihr := ih (fun p hp => hyp p (List.mem_cons_of_mem _ hp))
      cases m with
      | true =>
          have hsc := hyp (mv, sub) (List.mem_cons_self _ _) alpha beta false (mv :: hist)
          simp only [qLoopS, qLoop, Bool.not_true, hsc, if_true]
          split_ifs <;> first | rfl | exact ihr _ _ _ _
      | false =>
          have hsc := hyp (mv, sub) (List.mem_cons_self _ _) alpha beta true (mv :: hist)
          simp only [qLoopS, qLoop, Bool.not_false, hsc, Bool.false_eq_true, if_false]
          split_ifs <;> first | rfl | exact ihr _ _ _ _

theorem quiescenceS_fst :
    ∀ (n : Nat) (t : GTree), sizeOf t ≤ n →
    ∀ (a b : Score) (m : Bool) (hist : List Move),
      (quiescenceS t a b m hist).1 = quiescence t a b m := by
  intro n
  induction n with
  | zero =>
      intro t ht
      obtain ⟨g, children⟩ := t
      exfalso
      simp at ht
  | succ n ih =>
      intro t ht a b m hist
      obtain ⟨g, children⟩ := t
      have hsub : ∀ p ∈ (captureMoves children).mergeSort qSortLE,
          ∀ (x y : Score) (mm : Bool) (h : List Move),
          (quiescenceS p.2 x y mm h).1 = quiescence p.2 x y mm := by
        intro p hp x y mm h
        have hmem : p ∈ children :=
          List.mem_of_mem_filter (List.mem_mergeSort.mp hp)
        have hlt := sizeOf_sub_lt_node hmem g
        exact ih p.2 (by omega) x y mm h
      cases m with
      | true =>
          simp only [quiescenceS, quiescence, if_true]
          split_ifs <;> first | rfl | exact qLoopS_fst _ hsub _ _ _ _
      | false =>
          simp only [quiescenceS, quiescence, Bool.false_eq_true, if_false]
          split_ifs <;> first | rfl | exact qLoopS_fst _ hsub _ _ _ _

theorem mmLoopMaxS_fst :
    ∀ (l : List (Move × GTree)) (d : Int),
    (∀ p ∈ l, ∀ (dd : Int) (a b : Score) (m : Bool) (hist : List Move),
      (minimaxS p.2 dd a b m hist).1 = minimax p.2 dd a b m) →
    ∀ (me alpha beta : Score) (hist : List Move),
      (mmLoopMaxS l d me alpha beta hist).1 = mmLoopMax l d me alpha beta := by
  intro l d
  induction l with
  | nil =>
      intro _ me alpha beta hist
      simp [mmLoopMaxS, mmLoopMax]
  | cons p rest ih =>
      intro hyp me alpha beta hist
      obtain ⟨mv, sub⟩ := p
      have ihr := ih (fun p hp => hyp p (List.mem_cons_of_mem _ hp))
      have hsc := hyp (mv, sub) (List.mem_cons_self _ _) (d - 1) alpha beta false
        (mv :: hist)
      simp only [mmLoopMaxS, mmLoopMax, hsc]
      split_ifs <;> first | rfl | exact ihr _ _ _ _

theorem mmLoopMinS_fst :
    ∀ (l : List (Move × GTree)) (d : Int),
    (∀ p ∈ l, ∀ (dd : Int) (a b : Score) (m : Bool) (hist : List Move),
      (minimaxS p.2 dd a b m hist).1 = minimax p.2 dd a b m) →
    ∀ (me alpha beta : Score) (hist : List Move),
      (mmLoopMinS l d me alpha beta hist).1 = mmLoopMin l d me alpha beta := by
  intro l d
  induction l with
  | nil =>
      intro _ me alpha beta hist
      simp [mmLoopMinS, mmLoopMin]
  | cons p rest ih =>
      intro hyp me alpha beta hist
      obtain ⟨mv, sub⟩ := p
      have ihr := ih (fun p hp => hyp p (List.mem_cons_of_mem _ hp))
      have hsc := hyp (mv, sub) (List.mem_cons_self _ _) (d - 1) alpha beta true
        (mv :: hist)
      simp only [mmLoopMinS, mmLoopMin, hsc]
      split_ifs <;> first | rfl | exact ihr _ _ _ _

theorem minimaxS_fst :
    ∀ (n : Nat) (t : GTree), sizeOf t ≤ n →
    ∀ (d : Int) (a b : Score) (m : Bool) (hist : List Move),
      (minimaxS t d a b m hist).1 = minimax t d a b m := by
  intro n
  induction n with
  | zero =>
      intro t ht
      obtain ⟨g, children⟩ := t
      exfalso
      simp at ht
  | succ n ih =>
      intro t ht d a b m hist
      obtain ⟨g, children⟩ := t
      have hsub : ∀ p ∈ children.mergeSort mmSortLE,
          ∀ (dd : Int) (x y : Score) (mm : Bool) (h : List Move),
          (minimaxS p.2 dd x y mm h).1 = minimax p.2 dd x y mm := by
        intro p hp dd x y mm h
        have hmem : p ∈ children := List.mem_mergeSort.mp hp
        have hlt := sizeOf_sub_lt_node hmem g
        exact ih p.2 (by omega) dd x y mm h
      simp only [minimaxS, minimax]
      split_ifs
      · exact quiescenceS_fst (sizeOf (GTree.node g children)) _ le_rfl _ _ _ _
      · exact mmLoopMaxS_fst _ d hsub _ _ _ _
      · exact mmLoopMinS_fst _ d hsub _ _ _ _

/-- The stateful and stateless renderings of the search agree on values:
erasing the history stack from `quiescenceS`/`minimaxS` yields exactly
`quiescence`/`minimax`, for every starting history. -/
theorem search_state_value_agreement (t : GTree) (d : Int) (a b : Score)
    (m : Bool) (hist : List Move) :
    (quiescenceS t a b m hist).1 = quiescence t a b m ∧
      (minimaxS t d a b m hist).1 = minimax t d a b m :=
  ⟨quiescenceS_fst (sizeOf t) t le_rfl a b m hist,
   minimaxS_fst (sizeOf t) t le_rfl d a b m hist⟩
